import Mathlib

/-!
Verification of the composite spectral basis machinery of the
`shenfun` Legendre/Laguerre basis modules
(`shenfun/legendre/bases.py`, `shenfun/laguerre/bases.py`).

The embedding works over exact rationals.  Polynomials are represented the
way numpy represents them: as coefficient lists (index = monomial degree),
with evaluation, addition, scalar multiplication, multiplication by `x`
and differentiation defined directly on the lists.  The Legendre and
Laguerre polynomial families are defined through their three-term
recurrences, exactly the recurrences used by
`numpy.polynomial.legendre` / `scipy.special.eval_legendre` and
`numpy.polynomial.laguerre` / `scipy.special.eval_laguerre`.

The Laguerre *function* `L_k = P_k * exp(-x/2)` carries an exponential
damping factor; since `exp(-x/2)` is a single common positive factor in
every Laguerre expression of the code, it is represented by an explicit
parameter `ex : ℚ` standing for the value of `exp(-x/2)` at the point
under consideration.  Likewise the Legendre Dirichlet "scaled" factor
`1/sqrt(4k+6)` is irrational, and is represented by an abstract
per-mode factor `sfac : ℕ → ℚ`; the code uses the very same factor array
`self._factor` in `_composite_basis`, `to_ortho`, `evaluate_basis` and
`eval`, so every identity below is proved for an arbitrary factor
function and hence in particular for `1/sqrt(4k+6)`.
-/

/-- Evaluate a coefficient list `[a0, a1, a2, ...]` (index = degree) at `x`. -/
def evalPoly : List ℚ → ℚ → ℚ
  | [], _ => 0
  | a :: p, x => a + x * evalPoly p x

/-- Coefficient-wise sum of two coefficient lists (shorter list padded with zeros). -/
def addPoly : List ℚ → List ℚ → List ℚ
  | [], q => q
  | p, [] => p
  | a :: p, b :: q => (a + b) :: addPoly p q

/-- Multiply every coefficient by the scalar `c`. -/
def smulPoly (c : ℚ) (p : List ℚ) : List ℚ := p.map (fun a => c * a)

/-- Multiplication of a coefficient list by the monomial `x`. -/
def mulX : List ℚ → List ℚ
  | [] => []
  | a :: p => 0 :: a :: p

/-- Helper for differentiation: `derivAux [a0, a1, ...] n = [n*a0, (n+1)*a1, ...]`. -/
def derivAux : List ℚ → ℚ → List ℚ
  | [], _ => []
  | a :: p, n => n * a :: derivAux p (n + 1)

/-- Derivative of a coefficient list: `[a0, a1, a2, ...] ↦ [a1, 2*a2, 3*a3, ...]`. -/
def derivPoly : List ℚ → List ℚ
  | [] => []
  | _ :: p => derivAux p 1

theorem evalPoly_addPoly (p q : List ℚ) (x : ℚ) :
    evalPoly (addPoly p q) x = evalPoly p x + evalPoly q x := by
  induction p generalizing q with
  | nil => simp [addPoly, evalPoly]
  | cons a p ih =>
    cases q with
    | nil => simp [addPoly, evalPoly]
    | cons b q => simp [addPoly, evalPoly, ih]; ring

theorem evalPoly_smulPoly (c : ℚ) (p : List ℚ) (x : ℚ) :
    evalPoly (smulPoly c p) x = c * evalPoly p x := by
  induction p with
  | nil => simp [smulPoly, evalPoly]
  | cons a p ih => simp [smulPoly, evalPoly] at *; rw [ih]; ring

theorem evalPoly_mulX (p : List ℚ) (x : ℚ) :
    evalPoly (mulX p) x = x * evalPoly p x := by
  cases p with
  | nil => simp [mulX, evalPoly]
  | cons a p => simp [mulX, evalPoly]

theorem addPoly_nil (p : List ℚ) : addPoly p [] = p := by
  cases p <;> rfl

theorem derivAux_succ (p : List ℚ) (n : ℚ) :
    derivAux p (n + 1) = addPoly p (derivAux p n) := by
  induction p generalizing n with
  | nil => rfl
  | cons a p ih => simp [derivAux, addPoly, ih]; ring

theorem derivAux_addPoly (p q : List ℚ) (n : ℚ) :
    derivAux (addPoly p q) n = addPoly (derivAux p n) (derivAux q n) := by
  induction p generalizing q n with
  | nil => simp [addPoly, derivAux]
  | cons a p ih =>
    cases q with
    | nil => simp [addPoly, derivAux]
    | cons b q => simp [addPoly, derivAux, ih]; ring

theorem derivPoly_addPoly (p q : List ℚ) :
    derivPoly (addPoly p q) = addPoly (derivPoly p) (derivPoly q) := by
  cases p with
  | nil => simp [addPoly, derivPoly]
  | cons a p =>
    cases q with
    | nil => simp [addPoly, derivPoly, addPoly_nil]
    | cons b q => simp [addPoly, derivPoly, derivAux_addPoly]

theorem derivAux_smulPoly (c : ℚ) (p : List ℚ) (n : ℚ) :
    derivAux (smulPoly c p) n = smulPoly c (derivAux p n) := by
  induction p generalizing n with
  | nil => rfl
  | cons a p ih =>
    show n * (c * a) :: derivAux (smulPoly c p) (n + 1) =
      c * (n * a) :: smulPoly c (derivAux p (n + 1))
    rw [ih]
    congr 1
    ring

theorem derivPoly_smulPoly (c : ℚ) (p : List ℚ) :
    derivPoly (smulPoly c p) = smulPoly c (derivPoly p) := by
  cases p with
  | nil => rfl
  | cons a p =>
    show derivAux (smulPoly c p) 1 = smulPoly c (derivAux p 1)
    exact derivAux_smulPoly c p 1

theorem derivPoly_mulX (p : List ℚ) :
    derivPoly (mulX p) = addPoly p (mulX (derivPoly p)) := by
  cases p with
  | nil => rfl
  | cons a p =>
    cases p with
    | nil =>
      show [(1 : ℚ) * a] = [a]
      norm_num
    | cons b p =>
      have lhs : derivPoly (mulX (a :: b :: p)) =
          (1 : ℚ) * a :: ((1 : ℚ) + 1) * b :: derivAux p (1 + 1 + 1) := rfl
      have rhs : addPoly (a :: b :: p) (mulX (derivPoly (a :: b :: p))) =
          (a + 0) :: (b + 1 * b) :: addPoly p (derivAux p (1 + 1)) := rfl
      rw [lhs, rhs, derivAux_succ p (1 + 1)]
      simp only [List.cons.injEq]
      exact ⟨by ring, by ring, trivial⟩

/-!  ## The Legendre family

`leg.legvander` / `scipy.special.eval_legendre` build the Legendre
polynomials from the standard three-term recurrence
`(n+2) P_{n+2} = (2n+3) x P_{n+1} - (n+1) P_n`, `P_0 = 1`, `P_1 = x`.
-/

/-- Monomial coefficient list of the Legendre polynomial `P_n`. -/
def legendreCoeffs : ℕ → List ℚ
  | 0 => [1]
  | 1 => [0, 1]
  | n + 2 =>
    smulPoly (1 / (n + 2))
      (addPoly (smulPoly (2 * n + 3) (mulX (legendreCoeffs (n + 1))))
        (smulPoly (-(n + 1 : ℚ)) (legendreCoeffs n)))

/-- Value of the Legendre polynomial `P_n` at `x` (`eval_legendre(n, x)`). -/
def legendreP (n : ℕ) (x : ℚ) : ℚ := evalPoly (legendreCoeffs n) x

/-- Value of the first derivative of the Legendre polynomial `P_n` at `x`
(what `leg.Legendre(e_n).deriv(1)` evaluates to). -/
def legendreD (n : ℕ) (x : ℚ) : ℚ := evalPoly (derivPoly (legendreCoeffs n)) x

theorem legendreP_zero (x : ℚ) : legendreP 0 x = 1 := by
  simp [legendreP, legendreCoeffs, evalPoly]

theorem legendreP_one (x : ℚ) : legendreP 1 x = x := by
  simp [legendreP, legendreCoeffs, evalPoly]

theorem legendreP_rec (n : ℕ) (x : ℚ) :
    ((n : ℚ) + 2) * legendreP (n + 2) x =
      (2 * n + 3) * (x * legendreP (n + 1) x) - ((n : ℚ) + 1) * legendreP n x := by
  have h : ((n : ℚ) + 2) ≠ 0 := by positivity
  simp only [legendreP, legendreCoeffs, evalPoly_smulPoly, evalPoly_addPoly, evalPoly_mulX]
  field_simp
  ring

theorem legendreD_zero (x : ℚ) : legendreD 0 x = 0 := by
  simp [legendreD, legendreCoeffs, derivPoly, evalPoly]

theorem legendreD_one (x : ℚ) : legendreD 1 x = 1 := by
  simp [legendreD, legendreCoeffs, derivPoly, derivAux, evalPoly]

theorem legendreD_rec (n : ℕ) (x : ℚ) :
    ((n : ℚ) + 2) * legendreD (n + 2) x =
      (2 * n + 3) * (legendreP (n + 1) x + x * legendreD (n + 1) x) -
        ((n : ℚ) + 1) * legendreD n x := by
  have h : ((n : ℚ) + 2) ≠ 0 := by positivity
  have hl : derivPoly (legendreCoeffs (n + 2)) =
      smulPoly (1 / (n + 2))
        (addPoly (smulPoly (2 * n + 3)
            (addPoly (legendreCoeffs (n + 1)) (mulX (derivPoly (legendreCoeffs (n + 1))))))
          (smulPoly (-(n + 1 : ℚ)) (derivPoly (legendreCoeffs n)))) := by
    show derivPoly (smulPoly (1 / (n + 2)) _) = _
    rw [derivPoly_smulPoly, derivPoly_addPoly, derivPoly_smulPoly, derivPoly_smulPoly,
      derivPoly_mulX]
  simp only [legendreD, legendreP, hl, evalPoly_smulPoly, evalPoly_addPoly, evalPoly_mulX]
  field_simp
  ring

/-!  Endpoint values of the Legendre polynomials and their derivatives,
used by the boundary-vanishing properties. -/

theorem legendreP_at_one (n : ℕ) : legendreP n 1 = 1 := by
  have key : ∀ m : ℕ, legendreP m 1 = 1 ∧ legendreP (m + 1) 1 = 1 := by
    intro m
    induction m with
    | zero => exact ⟨legendreP_zero 1, legendreP_one 1⟩
    | succ k ih =>
      refine ⟨ih.2, ?_⟩
      have hrec := legendreP_rec k 1
      have h : ((k : ℚ) + 2) ≠ 0 := by positivity
      have : ((k : ℚ) + 2) * legendreP (k + 2) 1 = (k : ℚ) + 2 := by
        rw [hrec, ih.1, ih.2]; ring
      field_simp at this
      exact this
  exact (key n).1

theorem legendreP_at_negone (n : ℕ) : legendreP n (-1) = (-1) ^ n := by
  have key : ∀ m : ℕ, legendreP m (-1) = (-1) ^ m ∧ legendreP (m + 1) (-1) = (-1) ^ (m + 1) := by
    intro m
    induction m with
    | zero => refine ⟨?_, ?_⟩ <;> simp [legendreP_zero, legendreP_one]
    | succ k ih =>
      refine ⟨ih.2, ?_⟩
      have hrec := legendreP_rec k (-1)
      have h : ((k : ℚ) + 2) ≠ 0 := by positivity
      have hpow : ((-1 : ℚ)) ^ (k + 2) = (-1) ^ k := by
        rw [pow_succ, pow_succ]; ring
      have hpow1 : ((-1 : ℚ)) ^ (k + 1) = -(-1) ^ k := by
        rw [pow_succ]; ring
      rw [ih.1, ih.2] at hrec
      have : ((k : ℚ) + 2) * legendreP (k + 2) (-1) = ((k : ℚ) + 2) * (-1) ^ (k + 2) := by
        rw [hrec, hpow, hpow1]; ring
      exact mul_left_cancel₀ h this
  exact (key n).1

theorem legendreD_at_one (n : ℕ) : legendreD n 1 = n * (n + 1) / 2 := by
  have key : ∀ m : ℕ, legendreD m 1 = m * (m + 1) / 2 ∧
      legendreD (m + 1) 1 = (m + 1) * (m + 2) / 2 := by
    intro m
    induction m with
    | zero =>
      constructor
      · simp [legendreD_zero]
      · rw [legendreD_one]; norm_num
    | succ k ih =>
      have hcast : ((k : ℚ) + 1 + 1) = (k : ℚ) + 2 := by ring
      refine ⟨by rw [ih.2]; push_cast; ring, ?_⟩
      have hrec := legendreD_rec k 1
      have h : ((k : ℚ) + 2) ≠ 0 := by positivity
      rw [ih.1, ih.2, legendreP_at_one] at hrec
      have : ((k : ℚ) + 2) * legendreD (k + 2) 1 =
          ((k : ℚ) + 2) * (((k : ℚ) + 2) * ((k : ℚ) + 3) / 2) := by
        rw [hrec]; ring
      have := mul_left_cancel₀ h this
      rw [this]; push_cast; ring
  exact (key n).1

theorem legendreD_at_negone (n : ℕ) :
    legendreD n (-1) = (-1) ^ (n + 1) * (n * (n + 1) / 2) := by
  have key : ∀ m : ℕ, legendreD m (-1) = (-1) ^ (m + 1) * (m * (m + 1) / 2) ∧
      legendreD (m + 1) (-1) = (-1) ^ (m + 2) * ((m + 1) * (m + 2) / 2) := by
    intro m
    induction m with
    | zero =>
      constructor
      · simp [legendreD_zero]
      · rw [legendreD_one]; norm_num
    | succ k ih =>
      constructor
      · rw [ih.2]; push_cast; ring_nf
      · have hrec := legendreD_rec k (-1)
        have h : ((k : ℚ) + 2) ≠ 0 := by positivity
        rw [ih.1, ih.2, legendreP_at_negone] at hrec
        have hpow : ((-1 : ℚ)) ^ (k + 2) = (-1) ^ k := by
          rw [pow_succ, pow_succ]; ring
        have hpow1 : ((-1 : ℚ)) ^ (k + 1) = -(-1) ^ k := by
          rw [pow_succ]; ring
        have hpow3 : ((-1 : ℚ)) ^ (k + 3) = -(-1) ^ k := by
          rw [pow_succ, pow_succ, pow_succ]; ring
        rw [hpow, hpow1] at hrec
        have : ((k : ℚ) + 2) * legendreD (k + 2) (-1) =
            ((k : ℚ) + 2) * ((-1) ^ (k + 3) * (((k : ℚ) + 2) * ((k : ℚ) + 3) / 2)) := by
          rw [hrec, hpow3]; ring
        have := mul_left_cancel₀ h this
        rw [this]
        have he : k + 1 + 2 = k + 3 := rfl
        rw [he]
        push_cast
        ring
  exact (key n).1

/-!  ## The Laguerre family

`lag.lagvander` / `scipy.special.eval_laguerre` build the Laguerre
polynomials from the standard three-term recurrence
`(n+2) P_{n+2} = (2n+3-x) P_{n+1} - (n+1) P_n`, `P_0 = 1`, `P_1 = 1-x`.
The basis functions of the code are the damped Laguerre *functions*
`L_k = P_k * exp(-x/2)`; the damping value is the parameter `ex`.
-/

/-- Monomial coefficient list of the Laguerre polynomial `P_n`. -/
def laguerreCoeffs : ℕ → List ℚ
  | 0 => [1]
  | 1 => [1, -1]
  | n + 2 =>
    smulPoly (1 / (n + 2))
      (addPoly (smulPoly (2 * n + 3) (laguerreCoeffs (n + 1)))
        (addPoly (smulPoly (-1) (mulX (laguerreCoeffs (n + 1))))
          (smulPoly (-(n + 1 : ℚ)) (laguerreCoeffs n))))

/-- Value of the Laguerre polynomial `P_n` at `x` (`eval_laguerre(n, x)`). -/
def laguerreP (n : ℕ) (x : ℚ) : ℚ := evalPoly (laguerreCoeffs n) x

/-- Value of the first derivative of the Laguerre polynomial `P_n` at `x`. -/
def laguerreD (n : ℕ) (x : ℚ) : ℚ := evalPoly (derivPoly (laguerreCoeffs n)) x

/-- Value of the second derivative of the Laguerre polynomial `P_n` at `x`. -/
def laguerreD2 (n : ℕ) (x : ℚ) : ℚ :=
  evalPoly (derivPoly (derivPoly (laguerreCoeffs n))) x

/-- Partial sum `P_0 + ... + P_{n-1}`; `-lagSum n` is the Laguerre-series
form of the derivative of `P_n`, the quantity `numpy`'s `lagder` encodes. -/
def lagSum (n : ℕ) (x : ℚ) : ℚ := ∑ m in Finset.range n, laguerreP m x

/-- Iterated partial sum, the Laguerre-series form of the second derivative. -/
def lagSum2 (n : ℕ) (x : ℚ) : ℚ := ∑ m in Finset.range n, lagSum m x

theorem laguerreP_zero (x : ℚ) : laguerreP 0 x = 1 := by
  simp [laguerreP, laguerreCoeffs, evalPoly]

theorem laguerreP_one (x : ℚ) : laguerreP 1 x = 1 - x := by
  simp [laguerreP, laguerreCoeffs, evalPoly]; ring

theorem laguerreP_rec (n : ℕ) (x : ℚ) :
    ((n : ℚ) + 2) * laguerreP (n + 2) x =
      (2 * n + 3) * laguerreP (n + 1) x - x * laguerreP (n + 1) x -
        ((n : ℚ) + 1) * laguerreP n x := by
  have h : ((n : ℚ) + 2) ≠ 0 := by positivity
  simp only [laguerreP, laguerreCoeffs, evalPoly_smulPoly, evalPoly_addPoly, evalPoly_mulX]
  field_simp
  ring

theorem laguerreD_zero_fn (x : ℚ) : laguerreD 0 x = 0 := by
  simp [laguerreD, laguerreCoeffs, derivPoly, evalPoly]

theorem laguerreD_one_fn (x : ℚ) : laguerreD 1 x = -1 := by
  simp [laguerreD, laguerreCoeffs, derivPoly, derivAux, evalPoly]

theorem laguerreD2_zero_fn (x : ℚ) : laguerreD2 0 x = 0 := by
  simp [laguerreD2, laguerreCoeffs, derivPoly, evalPoly]

theorem laguerreD2_one_fn (x : ℚ) : laguerreD2 1 x = 0 := by
  simp [laguerreD2, laguerreCoeffs, derivPoly, derivAux, evalPoly]

theorem laguerreD_rec (n : ℕ) (x : ℚ) :
    ((n : ℚ) + 2) * laguerreD (n + 2) x =
      (2 * n + 3) * laguerreD (n + 1) x -
        (laguerreP (n + 1) x + x * laguerreD (n + 1) x) -
        ((n : ℚ) + 1) * laguerreD n x := by
  have h : ((n : ℚ) + 2) ≠ 0 := by positivity
  have hl : derivPoly (laguerreCoeffs (n + 2)) =
      smulPoly (1 / (n + 2))
        (addPoly (smulPoly (2 * n + 3) (derivPoly (laguerreCoeffs (n + 1))))
          (addPoly (smulPoly (-1)
              (addPoly (laguerreCoeffs (n + 1)) (mulX (derivPoly (laguerreCoeffs (n + 1))))))
            (smulPoly (-(n + 1 : ℚ)) (derivPoly (laguerreCoeffs n))))) := by
    show derivPoly (smulPoly (1 / (n + 2)) _) = _
    rw [derivPoly_smulPoly, derivPoly_addPoly, derivPoly_smulPoly, derivPoly_addPoly,
      derivPoly_smulPoly, derivPoly_smulPoly, derivPoly_mulX]
  simp only [laguerreD, laguerreP, hl, evalPoly_smulPoly, evalPoly_addPoly, evalPoly_mulX]
  field_simp
  ring

theorem laguerreD2_rec (n : ℕ) (x : ℚ) :
    ((n : ℚ) + 2) * laguerreD2 (n + 2) x =
      (2 * n + 3) * laguerreD2 (n + 1) x -
        (2 * laguerreD (n + 1) x + x * laguerreD2 (n + 1) x) -
        ((n : ℚ) + 1) * laguerreD2 n x := by
  have h : ((n : ℚ) + 2) ≠ 0 := by positivity
  have hl : derivPoly (laguerreCoeffs (n + 2)) =
      smulPoly (1 / (n + 2))
        (addPoly (smulPoly (2 * n + 3) (derivPoly (laguerreCoeffs (n + 1))))
          (addPoly (smulPoly (-1)
              (addPoly (laguerreCoeffs (n + 1)) (mulX (derivPoly (laguerreCoeffs (n + 1))))))
            (smulPoly (-(n + 1 : ℚ)) (derivPoly (laguerreCoeffs n))))) := by
    show derivPoly (smulPoly (1 / (n + 2)) _) = _
    rw [derivPoly_smulPoly, derivPoly_addPoly, derivPoly_smulPoly, derivPoly_addPoly,
      derivPoly_smulPoly, derivPoly_smulPoly, derivPoly_mulX]
  have hl2 : derivPoly (derivPoly (laguerreCoeffs (n + 2))) =
      smulPoly (1 / (n + 2))
        (addPoly (smulPoly (2 * n + 3) (derivPoly (derivPoly (laguerreCoeffs (n + 1)))))
          (addPoly (smulPoly (-1)
              (addPoly (derivPoly (laguerreCoeffs (n + 1)))
                (addPoly (derivPoly (laguerreCoeffs (n + 1)))
                  (mulX (derivPoly (derivPoly (laguerreCoeffs (n + 1))))))))
            (smulPoly (-(n + 1 : ℚ)) (derivPoly (derivPoly (laguerreCoeffs n)))))) := by
    rw [hl, derivPoly_smulPoly, derivPoly_addPoly, derivPoly_smulPoly, derivPoly_addPoly,
      derivPoly_smulPoly, derivPoly_smulPoly, derivPoly_addPoly, derivPoly_mulX]
  simp only [laguerreD2, laguerreD, hl2, evalPoly_smulPoly, evalPoly_addPoly, evalPoly_mulX]
  field_simp
  ring

theorem lagSum_succ (n : ℕ) (x : ℚ) :
    lagSum (n + 1) x = lagSum n x + laguerreP n x := by
  simp [lagSum, Finset.sum_range_succ]

theorem lagSum2_succ (n : ℕ) (x : ℚ) :
    lagSum2 (n + 1) x = lagSum2 n x + lagSum n x := by
  simp [lagSum2, Finset.sum_range_succ]

/-- Shifted form of the Laguerre three-term recurrence, valid from `n = 0`
(the `n * P_{n-1}` term carries coefficient zero there). -/
theorem laguerreP_rec' (n : ℕ) (x : ℚ) :
    ((n : ℚ) + 1) * laguerreP (n + 1) x =
      (2 * n + 1) * laguerreP n x - x * laguerreP n x -
        (n : ℚ) * laguerreP (n - 1) x := by
  cases n with
  | zero => simp [laguerreP_zero, laguerreP_one]
  | succ k =>
    have := laguerreP_rec k x
    have he : k + 1 + 1 = k + 2 := rfl
    have he2 : k + 1 - 1 = k := rfl
    rw [he, he2]
    push_cast
    push_cast at this
    linear_combination this

/-- The derivative of the Laguerre polynomial `P_n` is `-(P_0 + ... + P_{n-1})`
(the content of `numpy`'s Laguerre-series derivative), carried through the
induction together with the weighted identity `x P_n' = n P_n - n P_{n-1}`. -/
theorem laguerreD_closed_aux (n : ℕ) (x : ℚ) :
    laguerreD n x = -lagSum n x ∧ laguerreD (n + 1) x = -lagSum (n + 1) x ∧
      x * laguerreD n x = (n : ℚ) * laguerreP n x - (n : ℚ) * laguerreP (n - 1) x ∧
      x * laguerreD (n + 1) x = ((n : ℚ) + 1) * (laguerreP (n + 1) x - laguerreP n x) := by
  induction n with
  | zero =>
    refine ⟨?_, ?_, ?_, ?_⟩
    · simp [laguerreD_zero_fn, lagSum]
    · simp [laguerreD_one_fn, lagSum, laguerreP_zero]
    · simp [laguerreD_zero_fn]
    · simp [laguerreD_one_fn, laguerreP_zero, laguerreP_one]
  | succ m ih =>
    obtain ⟨ha, ha1, hbx0, hbx1⟩ := ih
    have h : ((m : ℚ) + 2) ≠ 0 := by positivity
    have hrec := laguerreD_rec m x
    have hs1 := lagSum_succ m x
    have hs2 := lagSum_succ (m + 1) x
    have hA2 : laguerreD (m + 2) x = -lagSum (m + 2) x := by
      have key : ((m : ℚ) + 2) * laguerreD (m + 2) x =
          ((m : ℚ) + 2) * (-lagSum (m + 2) x) := by
        linear_combination hrec - ((m : ℚ) + 1) * ha + (2 * (m : ℚ) + 3) * ha1 - hbx1 -
          ((m : ℚ) + 1) * hs1 + ((m : ℚ) + 2) * hs2
      exact mul_left_cancel₀ h key
    have hrecP := laguerreP_rec m x
    have hrecP' := laguerreP_rec' m x
    have hB2 : x * laguerreD (m + 2) x =
        ((m : ℚ) + 2) * (laguerreP (m + 2) x - laguerreP (m + 1) x) := by
      have key2 : ((m : ℚ) + 2) * (x * laguerreD (m + 2) x) =
          ((m : ℚ) + 2) * (((m : ℚ) + 2) * (laguerreP (m + 2) x - laguerreP (m + 1) x)) := by
        linear_combination x * hrec + (2 * (m : ℚ) + 3 - x) * hbx1 - ((m : ℚ) + 1) * hbx0 -
          ((m : ℚ) + 2) * hrecP + ((m : ℚ) + 1) * hrecP'
      exact mul_left_cancel₀ h key2
    have he : m + 1 + 1 = m + 2 := rfl
    have he2 : m + 1 - 1 = m := rfl
    refine ⟨ha1, ?_, ?_, ?_⟩
    · rw [he]; exact hA2
    · rw [he2]; push_cast; linear_combination hbx1
    · rw [he]; push_cast; linear_combination hB2

theorem laguerreD_closed (n : ℕ) (x : ℚ) : laguerreD n x = -lagSum n x :=
  (laguerreD_closed_aux n x).1

theorem laguerreD_x_closed (n : ℕ) (x : ℚ) :
    x * laguerreD (n + 1) x = ((n : ℚ) + 1) * (laguerreP (n + 1) x - laguerreP n x) :=
  (laguerreD_closed_aux n x).2.2.2

theorem lagSum2_x_closed (n : ℕ) (x : ℚ) :
    x * lagSum2 (n + 1) x = lagSum n x - (n : ℚ) * laguerreP n x := by
  induction n with
  | zero => simp [lagSum2, lagSum]
  | succ m ih =>
    have hxS : x * lagSum (m + 1) x = -(((m : ℚ) + 1) * (laguerreP (m + 1) x - laguerreP m x)) := by
      have h1 := laguerreD_closed (m + 1) x
      have h2 := laguerreD_x_closed m x
      have : x * (-lagSum (m + 1) x) = ((m : ℚ) + 1) * (laguerreP (m + 1) x - laguerreP m x) := by
        rw [← h1]; exact h2
      linear_combination -this
    have ht := lagSum2_succ (m + 1) x
    have hs := lagSum_succ m x
    push_cast
    linear_combination ih + hxS + x * ht - hs

/-- The second derivative of the Laguerre polynomial `P_n` is the iterated
partial sum of the family (the content of applying `lagder` twice). -/
theorem laguerreD2_closed (n : ℕ) (x : ℚ) :
    laguerreD2 n x = lagSum2 n x := by
  have key : ∀ m : ℕ, laguerreD2 m x = lagSum2 m x ∧ laguerreD2 (m + 1) x = lagSum2 (m + 1) x := by
    intro m
    induction m with
    | zero =>
      constructor
      · simp [laguerreD2_zero_fn, lagSum2]
      · simp [laguerreD2_one_fn, lagSum2, lagSum, Finset.sum_range_succ]
    | succ k ih =>
      obtain ⟨he1, he2⟩ := ih
      refine ⟨he2, ?_⟩
      have h : ((k : ℚ) + 2) ≠ 0 := by positivity
      have hrec := laguerreD2_rec k x
      have hd := laguerreD_closed (k + 1) x
      have hx := lagSum2_x_closed k x
      have ht1 := lagSum2_succ (k + 1) x
      have ht0 := lagSum2_succ k x
      have hs1 := lagSum_succ k x
      have key2 : ((k : ℚ) + 2) * laguerreD2 (k + 2) x =
          ((k : ℚ) + 2) * lagSum2 (k + 2) x := by
        linear_combination hrec + (2 * (k : ℚ) + 3) * he2 - ((k : ℚ) + 1) * he1 - 2 * hd -
          x * he2 - hx - ((k : ℚ) + 2) * ht1 + ((k : ℚ) + 1) * ht0 - (k : ℚ) * hs1
      have := mul_left_cancel₀ h key2
      have he : k + 1 + 1 = k + 2 := rfl
      rw [he]
      exact this
  exact (key n).1

theorem laguerreP_at_zero (n : ℕ) : laguerreP n 0 = 1 := by
  have key : ∀ m : ℕ, laguerreP m 0 = 1 ∧ laguerreP (m + 1) 0 = 1 := by
    intro m
    induction m with
    | zero =>
      constructor
      · exact laguerreP_zero 0
      · rw [laguerreP_one]; norm_num
    | succ k ih =>
      refine ⟨ih.2, ?_⟩
      have h : ((k : ℚ) + 2) ≠ 0 := by positivity
      have hrec := laguerreP_rec k 0
      rw [ih.1, ih.2] at hrec
      have : ((k : ℚ) + 2) * laguerreP (k + 2) 0 = ((k : ℚ) + 2) * 1 := by
        linear_combination hrec
      exact mul_left_cancel₀ h this
  exact (key n).1

/-!  ## Generic finite-sum helpers -/

theorem sum_unit_mul (N k : ℕ) (hk : k < N) (g : ℕ → ℚ) :
    ∑ j in Finset.range N, (if j = k then (1 : ℚ) else 0) * g j = g k := by
  rw [Finset.sum_eq_single k]
  · simp
  · intro b _ hb
    simp [hb]
  · intro hnot
    exact absurd (Finset.mem_range.mpr hk) hnot

theorem sum_ite_lt_range (M j : ℕ) (hj : j ≤ M) (f : ℕ → ℚ) :
    ∑ m in Finset.range M, (if m < j then f m else 0) = ∑ m in Finset.range j, f m := by
  rw [← Finset.sum_subset (Finset.range_subset.mpr hj)]
  · exact Finset.sum_congr rfl fun m hm => if_pos (Finset.mem_range.mp hm)
  · intro m _ hm
    have : ¬ m < j := fun hc => hm (Finset.mem_range.mpr hc)
    simp [this]

/-- Rewriting the iterated partial sum as a linearly weighted single sum:
this is the column of `lagder(eye, 2)`. -/
theorem lagSum2_weighted (j : ℕ) (x : ℚ) :
    lagSum2 j x = ∑ l in Finset.range j, ((j : ℚ) - 1 - l) * laguerreP l x := by
  induction j with
  | zero => simp [lagSum2]
  | succ m ih =>
    rw [lagSum2_succ, ih, Finset.sum_range_succ]
    have hz : (((m + 1 : ℕ) : ℚ)) - 1 - (m : ℚ) = 0 := by push_cast; ring
    rw [hz, zero_mul, add_zero]
    have hS : lagSum m x = ∑ l in Finset.range m, laguerreP l x := rfl
    rw [hS, ← Finset.sum_add_distrib]
    refine Finset.sum_congr rfl ?_
    intro l _
    push_cast
    ring

/-!  ## Series evaluation (`leg.legval` / `lag.lagval` semantics)

A coefficient array of length `N` evaluated against the primary family.
For Laguerre, `lagval` is followed by multiplication with `exp(-x/2)`,
represented by `ex`. -/

/-- Legendre series: `leg.legval(x, c)` for a length-`N` coefficient array. -/
def legSeries (N : ℕ) (c : ℕ → ℚ) (x : ℚ) : ℚ :=
  ∑ j in Finset.range N, c j * legendreP j x

/-- Damped Laguerre-function series:
`lag.lagval(x, c) * exp(-x/2)` for a length-`N` coefficient array. -/
def lagSeries (N : ℕ) (c : ℕ → ℚ) (x ex : ℚ) : ℚ :=
  (∑ j in Finset.range N, c j * laguerreP j x) * ex

/-- The unit coefficient vector at index `k`. -/
def unitVec (k : ℕ) : ℕ → ℚ := fun j => if j = k then 1 else 0

/-!  ## `legendre.bases.ShenDirichletBasis`

`scaled` selects division by `sqrt(4k+6)`; the reciprocal factor
`1/sqrt(4k+6)` is abstracted as `sfac k` and a division `y/sqrt(4k+6)`
of the code is embedded as `y * sfac k`. -/

/-- `BCBasis.coefficient_matrix()` (rows = the two boundary basis
functions, columns = Legendre coefficients). -/
def bcBasis_coefficient_matrix (r c : ℕ) : ℚ :=
  (([[1/2, -1/2], [1/2, 1/2]] : List (List ℚ)).getD r []).getD c 0

/-- `ShenDirichletBasis._composite_basis(V, argument)`: columns `< N-2` hold
`V[k] - V[k+2]` (optionally rescaled), the two trailing boundary-lift
columns are zero unless `argument == 1`. -/
def legDir_composite_basis (N : ℕ) (scaled : Bool) (sfac : ℕ → ℚ) (argument : ℕ)
    (V : ℕ → ℕ → ℚ) : ℕ → ℕ → ℚ := fun i j =>
  if j < N - 2 then
    (if scaled then (V i j - V i (j + 2)) * sfac j else V i j - V i (j + 2))
  else if argument = 1 then
    (if j = N - 2 then (V i 0 - V i 1) / 2
     else if j = N - 1 then (V i 0 + V i 1) / 2
     else 0)
  else 0

/-- Modelled from the spec (§4.5): `BoundaryValues.add_to_orthogonal`
(defined in `shenfun/tensorproductspace.py`, which is not under `src/`)
adds the contribution of the boundary degrees of freedom stored in the two
trailing slots of the composite array into the orthogonal coefficients,
through the BC basis's coefficient matrix (which is in `src/`:
`BCBasis.coefficient_matrix`).  The two degree-`≤1` boundary functions
`(P_0 - P_1)/2` and `(P_0 + P_1)/2` contribute to orthogonal slots 0, 1. -/
def legDir_bc_add_to_orthogonal (N : ℕ) (u : ℕ → ℚ) (j : ℕ) : ℚ :=
  if j = 0 then u (N - 2) * bcBasis_coefficient_matrix 0 0 + u (N - 1) * bcBasis_coefficient_matrix 1 0
  else if j = 1 then u (N - 2) * bcBasis_coefficient_matrix 0 1 + u (N - 1) * bcBasis_coefficient_matrix 1 1
  else 0

/-- `ShenDirichletBasis.to_ortho`: `out[0:-2] = in[0:-2] (* sfac)`,
`out[2:] -= in[0:-2] (* sfac)`, then the boundary contribution is added. -/
def legDir_to_ortho (N : ℕ) (scaled : Bool) (sfac : ℕ → ℚ) (u : ℕ → ℚ) : ℕ → ℚ := fun j =>
  (if j < N - 2 then (if scaled then u j * sfac j else u j) else 0)
  - (if 2 ≤ j ∧ j < N then (if scaled then u (j - 2) * sfac (j - 2) else u (j - 2)) else 0)
  + legDir_bc_add_to_orthogonal N u j

/-- `ShenDirichletBasis.evaluate_basis(x, i)` = `P_i(x) - P_{i+2}(x)`,
rescaled when `scaled`; the code performs no range check on `i`. -/
def legDir_evaluate_basis (scaled : Bool) (sfac : ℕ → ℚ) (x : ℚ) (i : ℕ) : ℚ :=
  if scaled then (legendreP i x - legendreP (i + 2) x) * sfac i
  else legendreP i x - legendreP (i + 2) x

/-- `ShenDirichletBasis.slice()` = `slice(0, N-2)`. -/
def legDir_slice (N : ℕ) : ℕ × ℕ := (0, N - 2)

/-!  ## `legendre.bases.ShenNeumannBasis` -/

/-- `ShenNeumannBasis.set_factor_array`: `k(k+1)/(k+2)/(k+3)`. -/
def legNeu_factor (k : ℕ) : ℚ := (k : ℚ) * ((k : ℚ) + 1) / ((k : ℚ) + 2) / ((k : ℚ) + 3)

/-- `ShenNeumannBasis._composite_basis(V, argument)`: columns `< N-2` hold
`V[k] - (k(k+1)/(k+2))/(k+3) * V[k+2]`; trailing columns stay zero for every
`argument`. -/
def legNeu_composite_basis (N : ℕ) (argument : ℕ) (V : ℕ → ℕ → ℚ) : ℕ → ℕ → ℚ := fun i j =>
  if j < N - 2 then
    V i j - ((j : ℚ) * ((j : ℚ) + 1) / ((j : ℚ) + 2)) / ((j : ℚ) + 3) * V i (j + 2)
  else 0

/-- `ShenNeumannBasis.to_ortho`. -/
def legNeu_to_ortho (N : ℕ) (u : ℕ → ℚ) : ℕ → ℚ := fun j =>
  (if j < N - 2 then u j else 0)
  - (if 2 ≤ j ∧ j < N then legNeu_factor (j - 2) * u (j - 2) else 0)

/-- `ShenNeumannBasis.evaluate_basis(x, i)` =
`P_i(x) - i(i+1)/(i+2)/(i+3) * P_{i+2}(x)`. -/
def legNeu_evaluate_basis (x : ℚ) (i : ℕ) : ℚ :=
  legendreP i x - (i : ℚ) * ((i : ℚ) + 1) / ((i : ℚ) + 2) / ((i : ℚ) + 3) * legendreP (i + 2) x

/-- The Legendre-coefficient array built by
`ShenNeumannBasis.evaluate_basis_derivative` (`basis[i] = 1`,
`basis[i+2] = -i(i+1)/(i+2)/(i+3)`), as a monomial coefficient list. -/
def legNeu_basis_coeffs (i : ℕ) : List ℚ :=
  addPoly (legendreCoeffs i)
    (smulPoly (-((i : ℚ) * ((i : ℚ) + 1) / ((i : ℚ) + 2) / ((i : ℚ) + 3))) (legendreCoeffs (i + 2)))

/-- `ShenNeumannBasis.evaluate_basis_derivative(x, i, k)`:
the `k`-th derivative of the composite basis polynomial. -/
def legNeu_evaluate_basis_derivative (x : ℚ) (i k : ℕ) : ℚ :=
  evalPoly (derivPoly^[k] (legNeu_basis_coeffs i)) x

/-- `ShenNeumannBasis.scalar_product`: the generic (vandermonde) scalar
product output `b` (from `SpectralBase.scalar_product`, not under `src/`,
therefore kept abstract) is overridden at slot 0 with `mean * pi` and the
two trailing slots are zeroed afterwards.  `piv` stands for `np.pi`. -/
def legNeu_scalar_product (N : ℕ) (mean piv : ℚ) (b : ℕ → ℚ) : ℕ → ℚ := fun j =>
  if N - 2 ≤ j ∧ j < N then 0
  else if j = 0 then mean * piv
  else b j

/-- Modelled from the spec: the generic forward transform
(`SpectralBase.forward`, not under `src/`) computes the scalar product and
then applies the inverse-mass step; the inverse-mass operator `invMass` is
kept abstract, with its spec-asserted property (§4.3: the injected mean
reaches mode 0 of the forward output) supplied as a hypothesis where
needed. -/
def legNeu_forward (N : ℕ) (mean piv : ℚ) (invMass : (ℕ → ℚ) → ℕ → ℚ)
    (b : ℕ → ℚ) : ℕ → ℚ :=
  invMass (legNeu_scalar_product N mean piv b)

/-!  ## `legendre.bases.ShenBiharmonicBasis` -/

/-- `BCBiharmonicBasis.coefficient_matrix()`. -/
def bcBih_coefficient_matrix (r c : ℕ) : ℚ :=
  (([[1/2, -3/5, 0, 1/10],
     [1/2, 3/5, 0, -1/10],
     [1/6, -1/10, -1/6, 1/10],
     [-1/6, -1/10, 1/6, 1/10]] : List (List ℚ)).getD r []).getD c 0

/-- `ShenBiharmonicBasis.set_factor_arrays`: `_factor1 = -2(2k+5)/(2k+7)`. -/
def legBih_factor1 (k : ℕ) : ℚ := -2 * (2 * (k : ℚ) + 5) / (2 * (k : ℚ) + 7)

/-- `ShenBiharmonicBasis.set_factor_arrays`: `_factor2 = (2k+3)/(2k+7)`. -/
def legBih_factor2 (k : ℕ) : ℚ := (2 * (k : ℚ) + 3) / (2 * (k : ℚ) + 7)

/-- `ShenBiharmonicBasis._composite_basis(V, argument)`: columns `< N-4` hold
`V[k] - 2(2k+5)/(2k+7) V[k+2] + (2k+3)/(2k+7) V[k+4]`; with `argument == 1`
the four trailing columns hold `tensordot(V[:, :4], coefficient_matrix, (1,1))`,
otherwise they stay zero. -/
def legBih_composite_basis (N : ℕ) (argument : ℕ) (V : ℕ → ℕ → ℚ) : ℕ → ℕ → ℚ := fun i j =>
  if j < N - 4 then
    V i j - 2 * (2 * (j : ℚ) + 5) / (2 * (j : ℚ) + 7) * V i (j + 2)
      + (2 * (j : ℚ) + 3) / (2 * (j : ℚ) + 7) * V i (j + 4)
  else if argument = 1 ∧ N - 4 ≤ j ∧ j < N then
    ∑ m in Finset.range 4, V i m * bcBih_coefficient_matrix (j - (N - 4)) m
  else 0

/-- Modelled from the spec (§4.5): `BoundaryValues.add_to_orthogonal` for the
biharmonic basis adds the four trailing boundary degrees of freedom into the
orthogonal coefficients 0..3 through `BCBiharmonicBasis.coefficient_matrix`
(which is in `src/`). -/
def legBih_bc_add_to_orthogonal (N : ℕ) (u : ℕ → ℚ) (j : ℕ) : ℚ :=
  if j < 4 then ∑ r in Finset.range 4, u (N - 4 + r) * bcBih_coefficient_matrix r j
  else 0

/-- `ShenBiharmonicBasis.to_ortho` (through `set_w_hat`):
`w[0:-4] = u[0:-4]`, `w[2:-2] += f1 * u[0:-4]`, `w[4:] += f2 * u[0:-4]`,
then the boundary contribution is added. -/
def legBih_to_ortho (N : ℕ) (u : ℕ → ℚ) : ℕ → ℚ := fun j =>
  (if j < N - 4 then u j else 0)
  + (if 2 ≤ j ∧ j < N - 2 then legBih_factor1 (j - 2) * u (j - 2) else 0)
  + (if 4 ≤ j ∧ j < N then legBih_factor2 (j - 4) * u (j - 4) else 0)
  + legBih_bc_add_to_orthogonal N u j

/-- `ShenBiharmonicBasis.evaluate_basis(x, i)`: the interior formula for
`i < N-4`, and the boundary-lift (sympy) branch for trailing `i`. -/
def legBih_evaluate_basis (N : ℕ) (x : ℚ) (i : ℕ) : ℚ :=
  if i < N - 4 then
    legendreP i x - 2 * (2 * (i : ℚ) + 5) / (2 * (i : ℚ) + 7) * legendreP (i + 2) x
      + (2 * (i : ℚ) + 3) / (2 * (i : ℚ) + 7) * legendreP (i + 4) x
  else
    ∑ m in Finset.range 4, bcBih_coefficient_matrix (i - (N - 4)) m * legendreP m x

/-- The Legendre-coefficient combination built by
`ShenBiharmonicBasis.evaluate_basis_derivative` for interior `i`,
as a monomial coefficient list. -/
def legBih_basis_coeffs (i : ℕ) : List ℚ :=
  addPoly (legendreCoeffs i)
    (addPoly (smulPoly (legBih_factor1 i) (legendreCoeffs (i + 2)))
      (smulPoly (legBih_factor2 i) (legendreCoeffs (i + 4))))

/-- `ShenBiharmonicBasis.evaluate_basis_derivative(x, i, k)` for interior
`i < N-4`: the `k`-th derivative of the composite basis polynomial. -/
def legBih_evaluate_basis_derivative (x : ℚ) (i k : ℕ) : ℚ :=
  evalPoly (derivPoly^[k] (legBih_basis_coeffs i)) x

/-- `ShenBiharmonicBasis.slice()` = `slice(0, N-4)`. -/
def legBih_slice (N : ℕ) : ℕ × ℕ := (0, N - 4)

/-!  ## `laguerre.bases.ShenDirichletBasis` and `LaguerreBase` -/

/-- `laguerre.ShenDirichletBasis._composite_basis(V)`:
`P[:, :-1] = V[:, :-1] - V[:, 1:]`, the trailing column stays zero. -/
def lagDir_composite_basis (N : ℕ) (argument : ℕ) (V : ℕ → ℕ → ℚ) : ℕ → ℕ → ℚ := fun i j =>
  if j < N - 1 then V i j - V i (j + 1) else 0

/-- `laguerre.ShenDirichletBasis.to_ortho`:
`out[0:-1] = in[0:-1]`, `out[1:] -= in[0:-1]`. -/
def lagDir_to_ortho (N : ℕ) (u : ℕ → ℚ) : ℕ → ℚ := fun j =>
  (if j < N - 1 then u j else 0) - (if 1 ≤ j ∧ j < N then u (j - 1) else 0)

/-- `laguerre.ShenDirichletBasis.evaluate_basis(x, i)` =
`(P_i(x) - P_{i+1}(x)) * exp(-x/2)`. -/
def lagDir_evaluate_basis (x ex : ℚ) (i : ℕ) : ℚ :=
  (laguerreP i x - laguerreP (i + 1) x) * ex

/-- `laguerre.ShenDirichletBasis.slice()` = `slice(0, N-1)`. -/
def lagDir_slice (N : ℕ) : ℕ × ℕ := (0, N - 1)

/-- `laguerre.ShenDirichletBasis.eval(x, u)` for a length-`N` coefficient
array: `w_hat[1:] = u[:-1]`, result `(lagval(x, u) - lagval(x, w_hat)) * exp(-x/2)`.
Note the first term uses the FULL array `u`, trailing entry included. -/
def lagDir_eval (N : ℕ) (u : ℕ → ℚ) (x ex : ℚ) : ℚ :=
  ((∑ j in Finset.range N, u j * laguerreP j x)
    - (∑ j in Finset.range N, (if 1 ≤ j then u (j - 1) else 0) * laguerreP j x)) * ex

/-- Column `j` of `lagder(eye(M), 1)`: the Laguerre-series coefficients of
the derivative of the Laguerre polynomial `P_j`, whose closed form is
`dP_j/dx = -(P_0 + ... + P_{j-1})` (proved against `derivPoly` below). -/
def lagder1_mat (m j : ℕ) : ℚ := if m < j then -1 else 0

/-- Column `j` of `lagder(eye(M), 2)`: the Laguerre-series coefficients of
the second derivative of `P_j`, closed form `sum of (j-1-m) P_m`. -/
def lagder2_mat (m j : ℕ) : ℚ := if m + 1 < j then (j : ℚ) - 1 - (m : ℚ) else 0

/-- Row at point `x` of the matrix built by
`LaguerreBase.evaluate_basis_derivative_all` before `_composite_basis` is
applied: order 0 gives `V * exp(-x/2)`, order 1 gives
`(V @ D1 - V/2) * exp(-x/2)` and order 2 gives
`(V @ (D2 - D1) + V/4) * exp(-x/2)`, with `D1`, `D2` the `lagder` matrices. -/
def lagBase_derivative_row (M korder : ℕ) (x ex : ℚ) : ℕ → ℚ :=
  match korder with
  | 0 => fun j => laguerreP j x * ex
  | 1 => fun j =>
      ((∑ m in Finset.range M, laguerreP m x * lagder1_mat m j)
        - 1 / 2 * laguerreP j x) * ex
  | 2 => fun j =>
      ((∑ m in Finset.range M, laguerreP m x * (lagder2_mat m j - lagder1_mat m j))
        + 1 / 4 * laguerreP j x) * ex
  | _ => fun _ => 0

/-- `LaguerreBase.evaluate_basis_derivative_all(x, k)`: defined for
derivative orders 0, 1, 2 and raising `NotImplementedError` (here `none`)
for every higher order. -/
def lagBase_evaluate_basis_derivative_all (M korder : ℕ) (x ex : ℚ) : Option (ℕ → ℚ) :=
  if korder ≤ 2 then some (lagBase_derivative_row M korder x ex) else none

/-!  ## Transform planning (`LegendreBase.plan` / `ShenDirichletBasis.plan`)

Planning allocates aligned array buffers and wraps them into `Transform`
objects.  Object identity is modelled with a fresh-allocation counter:
every buffer (and every freshly built slice-map dictionary) receives a new
id, so "the same object" is "the same id".  The `Transform` wrapper (from
`shenfun.spectralbase`, not under `src/`) is modelled by the ids of the
arrays it is handed, exactly the arguments `Transform(func, xfftn, U, V, out)`
receives in `plan`. -/

structure TransformObj where
  inId : ℕ
  inShape : List ℕ
  tmpId : ℕ
  outId : ℕ
deriving DecidableEq, Repr

/-- State of one `LegendreBase`-planned basis: allocation counter, planned
axis, the three `Transform` objects plus `backward_uniform`, and the two
slice-map dictionaries `si`, `sl` (modelled as axis plus object id). -/
structure BaseState where
  nextId : ℕ
  axisv : ℕ
  fwd : Option TransformObj
  bwd : Option TransformObj
  buw : Option TransformObj
  sp : Option TransformObj
  si : Option (ℕ × ℕ)
  sl : Option (ℕ × ℕ)
deriving DecidableEq, Repr

/-- Shape of `_get_truncarray(shape, ...)`: entry `axis` reduced to the
unpadded mode count `N`. -/
def truncShape (shape : List ℕ) (ax N : ℕ) : List ℕ := shape.set ax N

/-- Allocation part of `LegendreBase.plan`: two fresh aligned buffers `U`,
`V`, a fresh truncated buffer when `padding_factor > 1 + 1e-8`, fresh
`Transform` wrappers and fresh `si`/`sl` dictionaries. -/
def baseRebuild (pf : ℚ) (N : ℕ) (shape : List ℕ) (ax : ℕ) (s : BaseState) : BaseState :=
  if 1 + 1 / 100000000 < pf then
    { nextId := s.nextId + 5
      axisv := ax
      fwd := some ⟨s.nextId, shape, s.nextId + 1, s.nextId + 2⟩
      bwd := some ⟨s.nextId + 2, truncShape shape ax N, s.nextId + 1, s.nextId⟩
      buw := some ⟨s.nextId + 2, truncShape shape ax N, s.nextId + 1, s.nextId⟩
      sp := some ⟨s.nextId, shape, s.nextId + 1, s.nextId + 1⟩
      si := some (ax, s.nextId + 3)
      sl := some (ax, s.nextId + 4) }
  else
    { nextId := s.nextId + 4
      axisv := ax
      fwd := some ⟨s.nextId, shape, s.nextId + 1, s.nextId + 1⟩
      bwd := some ⟨s.nextId + 1, shape, s.nextId + 1, s.nextId⟩
      buw := some ⟨s.nextId + 1, shape, s.nextId + 1, s.nextId⟩
      sp := some ⟨s.nextId, shape, s.nextId + 1, s.nextId + 1⟩
      si := some (ax, s.nextId + 2)
      sl := some (ax, s.nextId + 3) }

/-- `LegendreBase.plan(shape, axis, ...)`: a no-op when `forward` is already
a `Transform` whose input buffer has shape `shape` and the planned axis is
`axis`, a full rebuild otherwise. -/
def basePlan (pf : ℚ) (N : ℕ) (shape : List ℕ) (ax : ℕ) (s : BaseState) : BaseState :=
  match s.fwd with
  | some t => if t.inShape = shape ∧ s.axisv = ax then s else baseRebuild pf N shape ax s
  | none => baseRebuild pf N shape ax s

/-- State of a `ShenDirichletBasis`: the nested orthogonal basis `LT`
(whose buffers `U`, `V` the Shen transforms share) plus its own fields. -/
structure DirState where
  lt : BaseState
  axisv : ℕ
  fwd : Option TransformObj
  bwd : Option TransformObj
  buw : Option TransformObj
  sp : Option TransformObj
  si : Option (ℕ × ℕ)
  sl : Option (ℕ × ℕ)
deriving DecidableEq, Repr

/-- Rebuild part of `ShenDirichletBasis.plan`: plan the nested `LT`
(constructed with `padding_factor = 1`), reuse its `U`, `V` buffers, allot a
fresh truncated buffer when padded, and rebuild `si`/`sl`. -/
def dirRebuild (pf : ℚ) (N : ℕ) (shape : List ℕ) (ax : ℕ) (s : DirState) : DirState :=
  let lt1 := basePlan 1 N shape ax s.lt
  let u := (lt1.fwd.map (fun t => t.inId)).getD 0
  let v := (lt1.fwd.map (fun t => t.outId)).getD 0
  if 1 + 1 / 100000000 < pf then
    { lt := { lt1 with nextId := lt1.nextId + 3 }
      axisv := ax
      fwd := some ⟨u, shape, v, lt1.nextId⟩
      bwd := some ⟨lt1.nextId, truncShape shape ax N, v, u⟩
      buw := some ⟨lt1.nextId, truncShape shape ax N, v, u⟩
      sp := some ⟨u, shape, v, v⟩
      si := some (ax, lt1.nextId + 1)
      sl := some (ax, lt1.nextId + 2) }
  else
    { lt := { lt1 with nextId := lt1.nextId + 2 }
      axisv := ax
      fwd := some ⟨u, shape, v, v⟩
      bwd := some ⟨v, shape, v, u⟩
      buw := some ⟨v, shape, v, u⟩
      sp := some ⟨u, shape, v, v⟩
      si := some (ax, lt1.nextId)
      sl := some (ax, lt1.nextId + 1) }

/-- `ShenDirichletBasis.plan(shape, axis, ...)`: no-op when already planned
for the identical `(shape, axis)` pair, full rebuild otherwise. -/
def dirPlan (pf : ℚ) (N : ℕ) (shape : List ℕ) (ax : ℕ) (s : DirState) : DirState :=
  match s.fwd with
  | some t => if t.inShape = shape ∧ s.axisv = ax then s else dirRebuild pf N shape ax s
  | none => dirRebuild pf N shape ax s

/-- The unplanned state a `ShenDirichletBasis.__init__` starts from
(`forward` etc. are plain bound methods, not `Transform` objects). -/
def initDirState : DirState :=
  { lt := { nextId := 0, axisv := 0, fwd := none, bwd := none, buw := none,
            sp := none, si := none, sl := none }
    axisv := 0, fwd := none, bwd := none, buw := none, sp := none,
    si := none, sl := none }

/-!  ## Claim theorems -/

/-- Concrete Vandermonde-like test matrix used by the witnesses. -/
def testV (i j : ℕ) : ℚ := ((i : ℚ) + 1) * ((j : ℚ) + 1)

/-- C3: for the Legendre Neumann variant, the composite matrix built from a
Vandermonde matrix `V` satisfies
`composite[k] = V[k] - (k(k+1)/((k+2)(k+3))) V[k+2]` for every mode
`k ∈ [0, N-3]`, and the single-mode evaluator returns
`P_i(x) - (i(i+1)/((i+2)(i+3))) P_{i+2}(x)`. -/
theorem legNeu_composite_formula (N k i r : ℕ) (x : ℚ) (V : ℕ → ℕ → ℚ)
    (argument : ℕ) (hN : 3 ≤ N) (hk : k ≤ N - 3) :
    legNeu_composite_basis N argument V r k =
      V r k - ((k : ℚ) * ((k : ℚ) + 1) / (((k : ℚ) + 2) * ((k : ℚ) + 3))) * V r (k + 2)
    ∧ legNeu_evaluate_basis x i =
      legendreP i x -
        ((i : ℚ) * ((i : ℚ) + 1) / (((i : ℚ) + 2) * ((i : ℚ) + 3))) * legendreP (i + 2) x := by
  constructor
  · have hklt : k < N - 2 := by omega
    rw [legNeu_composite_basis, if_pos hklt, div_div]
  · rw [legNeu_evaluate_basis, div_div]

/-- Witness for C3 at `N = 5`, `k = 2`, `i = 3`, `x = 1/2`. -/
theorem legNeu_composite_formula_witness :
    (3 ≤ 5 ∧ 2 ≤ 5 - 3) ∧
      (legNeu_composite_basis 5 0 testV 0 2 =
          testV 0 2 - (((2 : ℕ) : ℚ) * (((2 : ℕ) : ℚ) + 1) /
            ((((2 : ℕ) : ℚ) + 2) * (((2 : ℕ) : ℚ) + 3))) * testV 0 (2 + 2)
        ∧ legNeu_evaluate_basis (1 / 2) 3 =
          legendreP 3 (1 / 2) - (((3 : ℕ) : ℚ) * (((3 : ℕ) : ℚ) + 1) /
            ((((3 : ℕ) : ℚ) + 2) * (((3 : ℕ) : ℚ) + 3))) * legendreP (3 + 2) (1 / 2)) :=
  ⟨⟨by decide, by decide⟩,
    legNeu_composite_formula 5 2 3 0 (1 / 2) testV 0 (by decide) (by decide)⟩

/-- C4: for the Laguerre Dirichlet variant, the composite matrix satisfies
`composite[k] = V[k] - V[k+1]` for `k ∈ [0, N-2]`, the retained-mode slice
is `[0, N-1)`, the evaluator returns `(P_i(x) - P_{i+1}(x)) exp(-x/2)`, and
mode 0 evaluates to 0 at `x = 0`. -/
theorem lagDir_composite_formula (N k i r : ℕ) (x ex : ℚ) (V : ℕ → ℕ → ℚ)
    (argument : ℕ) (hN : 2 ≤ N) (hk : k ≤ N - 2) :
    lagDir_composite_basis N argument V r k = V r k - V r (k + 1)
    ∧ lagDir_slice N = (0, N - 1)
    ∧ lagDir_evaluate_basis x ex i = (laguerreP i x - laguerreP (i + 1) x) * ex
    ∧ lagDir_evaluate_basis 0 ex 0 = 0 := by
  refine ⟨?_, rfl, rfl, ?_⟩
  · have hklt : k < N - 1 := by omega
    rw [lagDir_composite_basis, if_pos hklt]
  · rw [lagDir_evaluate_basis, laguerreP_at_zero, laguerreP_at_zero]
    ring

/-- Witness for C4 at `N = 6`, `k = 4`, `i = 2`, `x = 3`, `ex = 5/7`. -/
theorem lagDir_composite_formula_witness :
    (2 ≤ 6 ∧ 4 ≤ 6 - 2) ∧
      (lagDir_composite_basis 6 0 testV 1 4 = testV 1 4 - testV 1 (4 + 1)
        ∧ lagDir_slice 6 = (0, 6 - 1)
        ∧ lagDir_evaluate_basis 3 (5 / 7) 2 = (laguerreP 2 3 - laguerreP (2 + 1) 3) * (5 / 7)
        ∧ lagDir_evaluate_basis 0 (5 / 7) 0 = 0) :=
  ⟨⟨by decide, by decide⟩,
    lagDir_composite_formula 6 4 2 1 3 (5 / 7) testV 0 (by decide) (by decide)⟩

/-- C10: with argument 0, every `_composite_basis` leaves its trailing
boundary-lift columns identically zero (2 for Legendre Dirichlet and
Neumann, 4 for the biharmonic, 1 for Laguerre Dirichlet); with argument 1
the Dirichlet and biharmonic variants fill their lift columns with the
BC-basis combinations. -/
theorem composite_lift_columns (N i j : ℕ) (V : ℕ → ℕ → ℚ)
    (scaled : Bool) (sfac : ℕ → ℚ) (argument : ℕ) :
    (N - 2 ≤ j → legDir_composite_basis N scaled sfac 0 V i j = 0)
    ∧ (N - 2 ≤ j → legNeu_composite_basis N argument V i j = 0)
    ∧ (N - 4 ≤ j → legBih_composite_basis N 0 V i j = 0)
    ∧ (N - 1 ≤ j → lagDir_composite_basis N argument V i j = 0)
    ∧ (2 ≤ N →
        legDir_composite_basis N scaled sfac 1 V i (N - 2) = (V i 0 - V i 1) / 2
        ∧ legDir_composite_basis N scaled sfac 1 V i (N - 1) = (V i 0 + V i 1) / 2)
    ∧ (4 ≤ N → N - 4 ≤ j → j < N →
        legBih_composite_basis N 1 V i j =
          ∑ m in Finset.range 4, V i m * bcBih_coefficient_matrix (j - (N - 4)) m) := by
  refine ⟨?_, ?_, ?_, ?_, ?_, ?_⟩
  · intro hj
    rw [legDir_composite_basis, if_neg (by omega), if_neg (by omega)]
  · intro hj
    rw [legNeu_composite_basis, if_neg (by omega)]
  · intro hj
    rw [legBih_composite_basis, if_neg (by omega)]
    rw [if_neg]
    rintro ⟨h1, -⟩
    exact absurd h1 (by omega)
  · intro hj
    rw [lagDir_composite_basis, if_neg (by omega)]
  · intro hN
    constructor
    · rw [legDir_composite_basis, if_neg (by omega), if_pos rfl, if_pos rfl]
    · rw [legDir_composite_basis, if_neg (by omega), if_pos rfl, if_neg (by omega), if_pos rfl]
  · intro hN hj hjN
    rw [legBih_composite_basis, if_neg (by omega), if_pos ⟨rfl, hj, hjN⟩]

/-- Witness for C10 at `N = 6` with trailing indices. -/
theorem composite_lift_columns_witness :
    ((6 : ℕ) - 2 ≤ 4 ∧ 2 ≤ 6 ∧ 4 ≤ 6 ∧ (6 : ℕ) - 4 ≤ 4 ∧ 4 < 6 ∧ (6 : ℕ) - 1 ≤ 5) ∧
      (legDir_composite_basis 6 false (fun _ => 1) 0 testV 0 4 = 0
        ∧ legNeu_composite_basis 6 0 testV 0 4 = 0
        ∧ legBih_composite_basis 6 0 testV 0 4 = 0
        ∧ lagDir_composite_basis 6 0 testV 0 5 = 0
        ∧ legDir_composite_basis 6 false (fun _ => 1) 1 testV 0 (6 - 2) =
            (testV 0 0 - testV 0 1) / 2
        ∧ legDir_composite_basis 6 false (fun _ => 1) 1 testV 0 (6 - 1) =
            (testV 0 0 + testV 0 1) / 2
        ∧ legBih_composite_basis 6 1 testV 0 4 =
            ∑ m in Finset.range 4, testV 0 m * bcBih_coefficient_matrix (4 - (6 - 4)) m) := by
  have h1 := composite_lift_columns 6 0 4 testV false (fun _ => 1) 0
  have h2 := composite_lift_columns 6 0 5 testV false (fun _ => 1) 0
  exact ⟨by decide,
    h1.1 (by decide), h1.2.1 (by decide), h1.2.2.1 (by decide),
    h2.2.2.2.1 (by decide),
    (h1.2.2.2.2.1 (by decide)).1, (h1.2.2.2.2.1 (by decide)).2,
    h1.2.2.2.2.2 (by decide) (by decide) (by decide)⟩

/-- C8 counterexample: the claim asserts `evaluate_basis` fails with
`IndexOutOfValidRange` at `i = N-1`; the code performs no range check at
all (no such exception exists anywhere in `src/`) and at `N = 4`, `i = 3`,
`x = 1/2` it silently returns the value `P_3 - P_5 = -135/256`, a plain
(and nonzero) number rather than an error. -/
theorem legDir_no_error_counterexample :
    legDir_slice 4 = (0, 2)
    ∧ legDir_evaluate_basis false (fun _ => 1) (1 / 2) 3 = -135 / 256
    ∧ (-135 / 256 : ℚ) ≠ 0 := by
  refine ⟨rfl, ?_, by norm_num⟩
  norm_num [legDir_evaluate_basis, legendreP, legendreCoeffs, evalPoly, smulPoly, addPoly, mulX]

/-- C8 amended: `ShenDirichletBasis.evaluate_basis` applies no index-range
check; for every `i`, including the out-of-range `i ≥ N-2`, it silently
returns the closed-form value `P_i - P_{i+2}` (times the scaling factor
when scaled), which is in general nonzero — the valid range is only
recorded by `slice() = [0, N-2)`. -/
theorem legDir_evaluate_basis_out_of_range (N i : ℕ) (x : ℚ) (sfac : ℕ → ℚ)
    (hN : 2 ≤ N) (hi : N - 2 ≤ i) :
    legDir_slice N = (0, N - 2)
    ∧ legDir_evaluate_basis false sfac x i = legendreP i x - legendreP (i + 2) x
    ∧ legDir_evaluate_basis true sfac x i = (legendreP i x - legendreP (i + 2) x) * sfac i
    ∧ legDir_evaluate_basis false sfac (1 / 2) 3 ≠ 0 := by
  refine ⟨rfl, rfl, rfl, ?_⟩
  have h : legDir_evaluate_basis false sfac (1 / 2) 3 =
      legendreP 3 (1 / 2) - legendreP 5 (1 / 2) := rfl
  rw [h]
  norm_num [legendreP, legendreCoeffs, evalPoly, smulPoly, addPoly, mulX]

/-- Witness for the amended C8 at `N = 4`, `i = 3`. -/
theorem legDir_evaluate_basis_out_of_range_witness :
    (2 ≤ 4 ∧ (4 : ℕ) - 2 ≤ 3) ∧
      (legDir_slice 4 = (0, 4 - 2)
        ∧ legDir_evaluate_basis false (fun _ => 1) (1 / 2) 3 =
            legendreP 3 (1 / 2) - legendreP (3 + 2) (1 / 2)
        ∧ legDir_evaluate_basis true (fun _ => 1) (1 / 2) 3 =
            (legendreP 3 (1 / 2) - legendreP (3 + 2) (1 / 2)) * (fun _ => (1 : ℚ)) 3
        ∧ legDir_evaluate_basis false (fun _ => 1) (1 / 2) 3 ≠ 0) :=
  ⟨⟨by decide, by decide⟩,
    legDir_evaluate_basis_out_of_range 4 3 (1 / 2) (fun _ => 1) (by decide) (by decide)⟩

/-- Concrete coefficient array used by the witnesses. -/
def testU (j : ℕ) : ℚ := (j : ℚ) + 2

/-- C6 counterexample: the claim asserts the trailing slot `u[N-1]` never
influences `eval`; at `N = 2`, `u = e_1`, `x = 0`, `ex = 1` the code's
`eval` returns `1` (the term `u[N-1] P_{N-1}(x) exp(-x/2)` survives in
`lagval(x, u)`), while the claimed composite combination evaluates to `0`. -/
theorem lagDir_eval_counterexample :
    lagDir_eval 2 (unitVec 1) 0 1 = 1
    ∧ (∑ k in Finset.range (2 - 1), unitVec 1 k * lagDir_evaluate_basis 0 1 k) = 0
    ∧ lagDir_eval 2 (unitVec 1) 0 1 ≠
        ∑ k in Finset.range (2 - 1), unitVec 1 k * lagDir_evaluate_basis 0 1 k := by
  have h1 : lagDir_eval 2 (unitVec 1) 0 1 = 1 := by
    rw [lagDir_eval]
    rw [Finset.sum_range_succ, Finset.sum_range_succ, Finset.sum_range_zero,
      Finset.sum_range_succ, Finset.sum_range_succ, Finset.sum_range_zero]
    norm_num [unitVec, laguerreP_at_zero]
  have h2 : (∑ k in Finset.range (2 - 1), unitVec 1 k * lagDir_evaluate_basis 0 1 k) = 0 := by
    rw [show (2 : ℕ) - 1 = 1 from rfl, Finset.sum_range_succ, Finset.sum_range_zero]
    norm_num [unitVec]
  refine ⟨h1, h2, ?_⟩
  rw [h1, h2]
  norm_num

/-- C6 amended: for the Laguerre Dirichlet variant, `eval(x, u)` equals the
composite combination `sum of u[k] (P_k - P_{k+1}) exp(-x/2)` over
`k < N-1` PLUS the extra term `u[N-1] P_{N-1}(x) exp(-x/2)`: the trailing
slot does influence the result, and the claimed identity holds exactly when
`u[N-1] = 0`. -/
theorem lagDir_eval_decomposition (N : ℕ) (u : ℕ → ℚ) (x ex : ℚ) (hN : 1 ≤ N) :
    lagDir_eval N u x ex =
      (∑ k in Finset.range (N - 1), u k * (laguerreP k x - laguerreP (k + 1) x)) * ex
        + u (N - 1) * laguerreP (N - 1) x * ex := by
  obtain ⟨m, rfl⟩ : ∃ m, N = m + 1 := ⟨N - 1, by omega⟩
  have hs : (m + 1) - 1 = m := rfl
  rw [hs]
  have h1 : (∑ j in Finset.range (m + 1), u j * laguerreP j x) =
      (∑ j in Finset.range m, u j * laguerreP j x) + u m * laguerreP m x :=
    Finset.sum_range_succ _ _
  have h2 : (∑ j in Finset.range (m + 1), (if 1 ≤ j then u (j - 1) else 0) * laguerreP j x) =
      ∑ i in Finset.range m, u i * laguerreP (i + 1) x := by
    rw [Finset.sum_range_succ']
    simp
  have h3 : (∑ k in Finset.range m, u k * (laguerreP k x - laguerreP (k + 1) x)) =
      (∑ k in Finset.range m, u k * laguerreP k x)
        - ∑ k in Finset.range m, u k * laguerreP (k + 1) x := by
    rw [← Finset.sum_sub_distrib]
    exact Finset.sum_congr rfl fun k _ => by ring
  rw [lagDir_eval, h1, h2, h3]
  ring

/-- Witness for the amended C6 at `N = 3`, `u j = j + 2`, `x = 1`, `ex = 2`. -/
theorem lagDir_eval_decomposition_witness :
    (1 ≤ 3) ∧
      lagDir_eval 3 testU 1 2 =
        (∑ k in Finset.range (3 - 1), testU k * (laguerreP k 1 - laguerreP (k + 1) 1)) * 2
          + testU (3 - 1) * laguerreP (3 - 1) 1 * 2 :=
  ⟨by decide, lagDir_eval_decomposition 3 testU 1 2 (by decide)⟩

/-- C7: the Legendre Neumann `scalar_product` override writes `mean * pi`
into the mode-0 slot and zeroes the two trailing slots, regardless of what
the generic scalar product produced from the physical-space input; through
the (spec-modelled) forward pipeline, whose inverse-mass step preserves the
mode-0 slot, the forward output of any input therefore carries `mean * pi`
in mode 0. -/
theorem legNeu_scalar_product_mean (N : ℕ) (mean piv : ℚ) (b : ℕ → ℚ)
    (invMass : (ℕ → ℚ) → ℕ → ℚ) (hN : 3 ≤ N)
    (hinv : ∀ c : ℕ → ℚ, invMass c 0 = c 0) :
    legNeu_scalar_product N mean piv b 0 = mean * piv
    ∧ legNeu_scalar_product N mean piv b (N - 2) = 0
    ∧ legNeu_scalar_product N mean piv b (N - 1) = 0
    ∧ legNeu_forward N mean piv invMass b 0 = mean * piv := by
  have h0 : legNeu_scalar_product N mean piv b 0 = mean * piv := by
    rw [legNeu_scalar_product, if_neg (by omega), if_pos rfl]
  refine ⟨h0, ?_, ?_, ?_⟩
  · rw [legNeu_scalar_product, if_pos ⟨le_refl _, by omega⟩]
  · rw [legNeu_scalar_product, if_pos ⟨by omega, by omega⟩]
  · rw [legNeu_forward, hinv, h0]

/-- Witness for C7 at `N = 4`, `mean = 2`, `pi` stand-in `22/7`, input `testU`,
identity inverse mass. -/
theorem legNeu_scalar_product_mean_witness :
    (3 ≤ 4) ∧
      (legNeu_scalar_product 4 2 (22 / 7) testU 0 = 2 * (22 / 7)
        ∧ legNeu_scalar_product 4 2 (22 / 7) testU (4 - 2) = 0
        ∧ legNeu_scalar_product 4 2 (22 / 7) testU (4 - 1) = 0
        ∧ legNeu_forward 4 2 (22 / 7) (fun c => c) testU 0 = 2 * (22 / 7)) :=
  ⟨by decide,
    legNeu_scalar_product_mean 4 2 (22 / 7) testU (fun c => c) (by decide) (fun _ => rfl)⟩

theorem legNeu_deriv_eval (x : ℚ) (i : ℕ) :
    legNeu_evaluate_basis_derivative x i 1 =
      legendreD i x -
        (i : ℚ) * ((i : ℚ) + 1) / ((i : ℚ) + 2) / ((i : ℚ) + 3) * legendreD (i + 2) x := by
  rw [legNeu_evaluate_basis_derivative, Function.iterate_one, legNeu_basis_coeffs,
    derivPoly_addPoly, derivPoly_smulPoly, evalPoly_addPoly, evalPoly_smulPoly]
  simp only [legendreD]
  ring

theorem legBih_deriv_eval (x : ℚ) (i : ℕ) :
    legBih_evaluate_basis_derivative x i 1 =
      legendreD i x + legBih_factor1 i * legendreD (i + 2) x
        + legBih_factor2 i * legendreD (i + 4) x := by
  rw [legBih_evaluate_basis_derivative, Function.iterate_one, legBih_basis_coeffs,
    derivPoly_addPoly, derivPoly_addPoly, derivPoly_smulPoly, derivPoly_smulPoly,
    evalPoly_addPoly, evalPoly_addPoly, evalPoly_smulPoly, evalPoly_smulPoly]
  simp only [legendreD]
  ring

/-- C2 counterexample: the claim asserts the Neumann composite basis
functions vanish in VALUE at the endpoints; mode 0 is `P_0` (the factor
`0*1/2/3` vanishes), whose value at `x = 1` is `1`, not `0`. -/
theorem legNeu_value_counterexample :
    legNeu_evaluate_basis 1 0 = 1 ∧ (1 : ℚ) ≠ 0 := by
  constructor
  · rw [legNeu_evaluate_basis, legendreP_at_one, legendreP_at_one]
    norm_num
  · norm_num

/-- C2 amended: the Dirichlet and biharmonic composite basis functions
(interior modes) vanish in value at both endpoints, the biharmonic first
derivative also vanishes there, and the Neumann variant vanishes in FIRST
DERIVATIVE (not value) at both endpoints — the zero-derivative boundary
condition it enforces. -/
theorem boundary_vanishing (N i : ℕ) (scaled : Bool) (sfac : ℕ → ℚ) :
    legDir_evaluate_basis scaled sfac 1 i = 0
    ∧ legDir_evaluate_basis scaled sfac (-1) i = 0
    ∧ legNeu_evaluate_basis_derivative 1 i 1 = 0
    ∧ legNeu_evaluate_basis_derivative (-1) i 1 = 0
    ∧ (i < N - 4 → legBih_evaluate_basis N 1 i = 0)
    ∧ (i < N - 4 → legBih_evaluate_basis N (-1) i = 0)
    ∧ (i < N - 4 → legBih_evaluate_basis_derivative 1 i 1 = 0)
    ∧ (i < N - 4 → legBih_evaluate_basis_derivative (-1) i 1 = 0) := by
  have ha : ((i : ℚ) + 2) ≠ 0 := by positivity
  have hb : ((i : ℚ) + 3) ≠ 0 := by positivity
  have hc : (2 * (i : ℚ) + 7) ≠ 0 := by positivity
  have hp2 : ((-1 : ℚ)) ^ (i + 2) = (-1) ^ i := by rw [pow_add]; norm_num
  have hp3 : ((-1 : ℚ)) ^ (i + 3) = (-1) ^ (i + 1) := by
    rw [pow_add, pow_add]; norm_num
  have hp4 : ((-1 : ℚ)) ^ (i + 4) = (-1) ^ i := by rw [pow_add]; norm_num
  have hp5 : ((-1 : ℚ)) ^ (i + 5) = (-1) ^ (i + 1) := by
    rw [pow_add, pow_add]; norm_num
  refine ⟨?_, ?_, ?_, ?_, ?_, ?_, ?_, ?_⟩
  · rw [legDir_evaluate_basis]
    cases scaled <;> simp [legendreP_at_one]
  · rw [legDir_evaluate_basis]
    cases scaled <;> simp [legendreP_at_negone, hp2]
  · rw [legNeu_deriv_eval, legendreD_at_one, legendreD_at_one]
    push_cast
    field_simp
    ring
  · rw [legNeu_deriv_eval, legendreD_at_negone, legendreD_at_negone, hp3]
    push_cast
    field_simp
    ring
  · intro hi
    rw [legBih_evaluate_basis, if_pos hi, legendreP_at_one, legendreP_at_one,
      legendreP_at_one]
    field_simp
    ring
  · intro hi
    rw [legBih_evaluate_basis, if_pos hi, legendreP_at_negone, legendreP_at_negone,
      legendreP_at_negone, hp2, hp4]
    field_simp
    ring
  · intro hi
    rw [legBih_deriv_eval, legendreD_at_one, legendreD_at_one, legendreD_at_one,
      legBih_factor1, legBih_factor2]
    push_cast
    field_simp
    ring
  · intro hi
    rw [legBih_deriv_eval, legendreD_at_negone, legendreD_at_negone, legendreD_at_negone,
      hp3, hp5, legBih_factor1, legBih_factor2]
    push_cast
    field_simp
    ring

/-- Witness for the amended C2 at `N = 8`, `i = 2`. -/
theorem boundary_vanishing_witness :
    ((2 : ℕ) < 8 - 4) ∧
      (legDir_evaluate_basis false (fun _ => 1) 1 2 = 0
        ∧ legDir_evaluate_basis false (fun _ => 1) (-1) 2 = 0
        ∧ legNeu_evaluate_basis_derivative 1 2 1 = 0
        ∧ legNeu_evaluate_basis_derivative (-1) 2 1 = 0
        ∧ legBih_evaluate_basis 8 1 2 = 0
        ∧ legBih_evaluate_basis 8 (-1) 2 = 0
        ∧ legBih_evaluate_basis_derivative 1 2 1 = 0
        ∧ legBih_evaluate_basis_derivative (-1) 2 1 = 0) := by
  have h := boundary_vanishing 8 2 false (fun _ => 1)
  exact ⟨by decide, h.1, h.2.1, h.2.2.1, h.2.2.2.1,
    h.2.2.2.2.1 (by decide), h.2.2.2.2.2.1 (by decide),
    h.2.2.2.2.2.2.1 (by decide), h.2.2.2.2.2.2.2 (by decide)⟩

theorem legDir_to_ortho_unit (N k j : ℕ) (scaled : Bool) (sfac : ℕ → ℚ)
    (hk : k < N - 2) :
    legDir_to_ortho N scaled sfac (unitVec k) j =
      (if scaled then sfac k else 1) *
        ((if j = k then (1 : ℚ) else 0) - if j = k + 2 then 1 else 0) := by
  have hkN : k + 2 < N := by omega
  have hbc : legDir_bc_add_to_orthogonal N (unitVec k) j = 0 := by
    rw [legDir_bc_add_to_orthogonal]
    have hu1 : unitVec k (N - 2) = 0 := by rw [unitVec, if_neg]; omega
    have hu2 : unitVec k (N - 1) = 0 := by rw [unitVec, if_neg]; omega
    rw [hu1, hu2]
    split_ifs <;> ring
  rw [legDir_to_ortho, hbc, add_zero]
  have hterm1 : (if j < N - 2 then
      (if scaled then unitVec k j * sfac j else unitVec k j) else 0) =
      (if scaled then sfac k else 1) * (if j = k then (1 : ℚ) else 0) := by
    by_cases h1 : j = k
    · subst h1
      rw [if_pos hk, unitVec, if_pos rfl]
      cases scaled <;> simp
    · have hu : unitVec k j = 0 := by rw [unitVec, if_neg h1]
      rw [if_neg h1, mul_zero]
      split_ifs <;> simp [hu]
  have hterm2 : (if 2 ≤ j ∧ j < N then
      (if scaled then unitVec k (j - 2) * sfac (j - 2) else unitVec k (j - 2)) else 0) =
      (if scaled then sfac k else 1) * (if j = k + 2 then (1 : ℚ) else 0) := by
    by_cases h1 : j = k + 2
    · subst h1
      have he : k + 2 - 2 = k := by omega
      rw [if_pos ⟨by omega, hkN⟩, he, unitVec, if_pos rfl, if_pos rfl]
      cases scaled <;> simp
    · rw [if_neg h1, mul_zero]
      by_cases h2 : 2 ≤ j ∧ j < N
      · have hu : unitVec k (j - 2) = 0 := by rw [unitVec, if_neg]; omega
        rw [if_pos h2]
        split_ifs <;> simp [hu]
      · rw [if_neg h2]
  rw [hterm1, hterm2]
  ring

theorem legNeu_to_ortho_unit (N k j : ℕ) (hk : k < N - 2) :
    legNeu_to_ortho N (unitVec k) j =
      (if j = k then (1 : ℚ) else 0) - legNeu_factor k * (if j = k + 2 then 1 else 0) := by
  have hkN : k + 2 < N := by omega
  rw [legNeu_to_ortho]
  have hterm1 : (if j < N - 2 then unitVec k j else 0) = (if j = k then (1 : ℚ) else 0) := by
    by_cases h1 : j = k
    · subst h1; rw [if_pos hk, unitVec, if_pos rfl]
    · rw [if_neg h1]
      split_ifs with h2
      · rw [unitVec, if_neg h1]
      · rfl
  have hterm2 : (if 2 ≤ j ∧ j < N then legNeu_factor (j - 2) * unitVec k (j - 2) else 0) =
      legNeu_factor k * (if j = k + 2 then (1 : ℚ) else 0) := by
    by_cases h1 : j = k + 2
    · subst h1
      rw [if_pos ⟨by omega, hkN⟩]
      have hu : unitVec k (k + 2 - 2) = 1 := by rw [unitVec, if_pos]; omega
      have he : k + 2 - 2 = k := by omega
      rw [hu, he, if_pos rfl, mul_one]
    · rw [if_neg h1, mul_zero]
      split_ifs with h2
      · have hu : unitVec k (j - 2) = 0 := by rw [unitVec, if_neg]; omega
        rw [hu, mul_zero]
      · rfl
  rw [hterm1, hterm2]

theorem legBih_to_ortho_unit (N k j : ℕ) (hk : k < N - 4) :
    legBih_to_ortho N (unitVec k) j =
      (if j = k then (1 : ℚ) else 0) + legBih_factor1 k * (if j = k + 2 then 1 else 0)
        + legBih_factor2 k * (if j = k + 4 then 1 else 0) := by
  have hkN : k + 4 < N := by omega
  rw [legBih_to_ortho]
  have hbc : legBih_bc_add_to_orthogonal N (unitVec k) j = 0 := by
    rw [legBih_bc_add_to_orthogonal]
    split_ifs with h4
    · refine Finset.sum_eq_zero fun r hr => ?_
      have hr4 : r < 4 := Finset.mem_range.mp hr
      have hu : unitVec k (N - 4 + r) = 0 := by rw [unitVec, if_neg]; omega
      rw [hu, zero_mul]
    · rfl
  rw [hbc, add_zero]
  have hterm1 : (if j < N - 4 then unitVec k j else 0) = (if j = k then (1 : ℚ) else 0) := by
    by_cases h1 : j = k
    · subst h1; rw [if_pos hk, unitVec, if_pos rfl]
    · rw [if_neg h1]
      split_ifs with h2
      · rw [unitVec, if_neg h1]
      · rfl
  have hterm2 : (if 2 ≤ j ∧ j < N - 2 then legBih_factor1 (j - 2) * unitVec k (j - 2) else 0) =
      legBih_factor1 k * (if j = k + 2 then (1 : ℚ) else 0) := by
    by_cases h1 : j = k + 2
    · subst h1
      rw [if_pos ⟨by omega, by omega⟩]
      have hu : unitVec k (k + 2 - 2) = 1 := by rw [unitVec, if_pos]; omega
      have he : k + 2 - 2 = k := by omega
      rw [hu, he, if_pos rfl, mul_one]
    · rw [if_neg h1, mul_zero]
      split_ifs with h2
      · have hu : unitVec k (j - 2) = 0 := by rw [unitVec, if_neg]; omega
        rw [hu, mul_zero]
      · rfl
  have hterm3 : (if 4 ≤ j ∧ j < N then legBih_factor2 (j - 4) * unitVec k (j - 4) else 0) =
      legBih_factor2 k * (if j = k + 4 then (1 : ℚ) else 0) := by
    by_cases h1 : j = k + 4
    · subst h1
      rw [if_pos ⟨by omega, hkN⟩]
      have hu : unitVec k (k + 4 - 4) = 1 := by rw [unitVec, if_pos]; omega
      have he : k + 4 - 4 = k := by omega
      rw [hu, he, if_pos rfl, mul_one]
    · rw [if_neg h1, mul_zero]
      split_ifs with h2
      · have hu : unitVec k (j - 4) = 0 := by rw [unitVec, if_neg]; omega
        rw [hu, mul_zero]
      · rfl
  rw [hterm1, hterm2, hterm3]

theorem lagDir_to_ortho_unit (N k j : ℕ) (hk : k < N - 1) :
    lagDir_to_ortho N (unitVec k) j =
      (if j = k then (1 : ℚ) else 0) - (if j = k + 1 then 1 else 0) := by
  have hkN : k + 1 < N := by omega
  rw [lagDir_to_ortho]
  have hterm1 : (if j < N - 1 then unitVec k j else 0) = (if j = k then (1 : ℚ) else 0) := by
    by_cases h1 : j = k
    · subst h1; rw [if_pos hk, unitVec, if_pos rfl]
    · rw [if_neg h1]
      split_ifs with h2
      · rw [unitVec, if_neg h1]
      · rfl
  have hterm2 : (if 1 ≤ j ∧ j < N then unitVec k (j - 1) else 0) =
      (if j = k + 1 then (1 : ℚ) else 0) := by
    by_cases h1 : j = k + 1
    · subst h1
      rw [if_pos ⟨by omega, hkN⟩, unitVec, if_pos]
      · rw [if_pos rfl]
      · omega
    · rw [if_neg h1]
      split_ifs with h2
      · rw [unitVec, if_neg]; omega
      · rfl
  rw [hterm1, hterm2]

theorem series_two_delta (N k1 k2 : ℕ) (c1 c2 : ℚ) (g : ℕ → ℚ)
    (h1 : k1 < N) (h2 : k2 < N) :
    (∑ j in Finset.range N,
        (c1 * (if j = k1 then (1 : ℚ) else 0) + c2 * (if j = k2 then 1 else 0)) * g j)
      = c1 * g k1 + c2 * g k2 := by
  have hc : ∀ j ∈ Finset.range N,
      (c1 * (if j = k1 then (1 : ℚ) else 0) + c2 * (if j = k2 then 1 else 0)) * g j
        = c1 * ((if j = k1 then (1 : ℚ) else 0) * g j)
          + c2 * ((if j = k2 then (1 : ℚ) else 0) * g j) := fun j _ => by ring
  rw [Finset.sum_congr rfl hc, Finset.sum_add_distrib, ← Finset.mul_sum, ← Finset.mul_sum,
    sum_unit_mul N k1 h1 g, sum_unit_mul N k2 h2 g]

theorem series_three_delta (N k1 k2 k3 : ℕ) (c1 c2 c3 : ℚ) (g : ℕ → ℚ)
    (h1 : k1 < N) (h2 : k2 < N) (h3 : k3 < N) :
    (∑ j in Finset.range N,
        (c1 * (if j = k1 then (1 : ℚ) else 0) + c2 * (if j = k2 then 1 else 0)
          + c3 * (if j = k3 then 1 else 0)) * g j)
      = c1 * g k1 + c2 * g k2 + c3 * g k3 := by
  have hc : ∀ j ∈ Finset.range N,
      (c1 * (if j = k1 then (1 : ℚ) else 0) + c2 * (if j = k2 then 1 else 0)
        + c3 * (if j = k3 then 1 else 0)) * g j
        = c1 * ((if j = k1 then (1 : ℚ) else 0) * g j)
          + c2 * ((if j = k2 then (1 : ℚ) else 0) * g j)
          + c3 * ((if j = k3 then (1 : ℚ) else 0) * g j) := fun j _ => by ring
  rw [Finset.sum_congr rfl hc, Finset.sum_add_distrib, Finset.sum_add_distrib,
    ← Finset.mul_sum, ← Finset.mul_sum, ← Finset.mul_sum,
    sum_unit_mul N k1 h1 g, sum_unit_mul N k2 h2 g, sum_unit_mul N k3 h3 g]

/-- C1: for every supported Shen variant (Legendre Dirichlet unscaled and
scaled, Legendre Neumann, Legendre biharmonic, Laguerre Dirichlet) and
every valid interior mode `k`, applying `to_ortho` to the unit coefficient
vector at composite index `k` and evaluating the result as a primary-family
series agrees pointwise with directly evaluating the composite basis
function `evaluate_basis` at index `k`. -/
theorem to_ortho_roundtrip (N k : ℕ) (x ex : ℚ) (sfac : ℕ → ℚ) :
    (k < N - 2 →
      legSeries N (legDir_to_ortho N false sfac (unitVec k)) x =
        legDir_evaluate_basis false sfac x k)
    ∧ (k < N - 2 →
      legSeries N (legDir_to_ortho N true sfac (unitVec k)) x =
        legDir_evaluate_basis true sfac x k)
    ∧ (k < N - 2 →
      legSeries N (legNeu_to_ortho N (unitVec k)) x = legNeu_evaluate_basis x k)
    ∧ (k < N - 4 →
      legSeries N (legBih_to_ortho N (unitVec k)) x = legBih_evaluate_basis N x k)
    ∧ (k < N - 1 →
      lagSeries N (lagDir_to_ortho N (unitVec k)) x ex = lagDir_evaluate_basis x ex k) := by
  refine ⟨?_, ?_, ?_, ?_, ?_⟩
  · intro hk
    have hc : ∀ j ∈ Finset.range N,
        legDir_to_ortho N false sfac (unitVec k) j * legendreP j x =
          ((1 : ℚ) * (if j = k then (1 : ℚ) else 0)
            + (-1) * (if j = k + 2 then 1 else 0)) * legendreP j x := fun j _ => by
      rw [legDir_to_ortho_unit N k j false sfac hk,
        show (if (false : Bool) then sfac k else 1) = (1 : ℚ) from rfl]
      ring
    rw [legSeries, Finset.sum_congr rfl hc,
      series_two_delta N k (k + 2) 1 (-1) (fun j => legendreP j x) (by omega) (by omega)]
    rw [legDir_evaluate_basis]
    simp only [Bool.false_eq_true, if_false]
    ring
  · intro hk
    have hc : ∀ j ∈ Finset.range N,
        legDir_to_ortho N true sfac (unitVec k) j * legendreP j x =
          (sfac k * (if j = k then (1 : ℚ) else 0)
            + (-sfac k) * (if j = k + 2 then 1 else 0)) * legendreP j x := fun j _ => by
      rw [legDir_to_ortho_unit N k j true sfac hk,
        show (if (true : Bool) then sfac k else 1) = sfac k from rfl]
      ring
    rw [legSeries, Finset.sum_congr rfl hc,
      series_two_delta N k (k + 2) (sfac k) (-sfac k) (fun j => legendreP j x)
        (by omega) (by omega)]
    rw [legDir_evaluate_basis]
    simp only [if_true]
    ring
  · intro hk
    have hc : ∀ j ∈ Finset.range N,
        legNeu_to_ortho N (unitVec k) j * legendreP j x =
          ((1 : ℚ) * (if j = k then (1 : ℚ) else 0)
            + (-legNeu_factor k) * (if j = k + 2 then 1 else 0)) * legendreP j x := fun j _ => by
      rw [legNeu_to_ortho_unit N k j hk]; ring
    rw [legSeries, Finset.sum_congr rfl hc,
      series_two_delta N k (k + 2) 1 (-legNeu_factor k) (fun j => legendreP j x)
        (by omega) (by omega)]
    rw [legNeu_evaluate_basis, legNeu_factor]
    ring
  · intro hk
    have hc : ∀ j ∈ Finset.range N,
        legBih_to_ortho N (unitVec k) j * legendreP j x =
          ((1 : ℚ) * (if j = k then (1 : ℚ) else 0)
            + legBih_factor1 k * (if j = k + 2 then 1 else 0)
            + legBih_factor2 k * (if j = k + 4 then 1 else 0)) * legendreP j x := fun j _ => by
      rw [legBih_to_ortho_unit N k j hk]; ring
    rw [legSeries, Finset.sum_congr rfl hc,
      series_three_delta N k (k + 2) (k + 4) 1 (legBih_factor1 k) (legBih_factor2 k)
        (fun j => legendreP j x) (by omega) (by omega) (by omega)]
    rw [legBih_evaluate_basis, if_pos hk, legBih_factor1, legBih_factor2]
    ring
  · intro hk
    have hc : ∀ j ∈ Finset.range N,
        lagDir_to_ortho N (unitVec k) j * laguerreP j x =
          ((1 : ℚ) * (if j = k then (1 : ℚ) else 0)
            + (-1) * (if j = k + 1 then 1 else 0)) * laguerreP j x := fun j _ => by
      rw [lagDir_to_ortho_unit N k j hk]; ring
    rw [lagSeries, Finset.sum_congr rfl hc,
      series_two_delta N k (k + 1) 1 (-1) (fun j => laguerreP j x) (by omega) (by omega)]
    rw [lagDir_evaluate_basis]
    ring

/-- Witness for C1 at `N = 8`, `k = 1`, `x = 1/2`, `ex = 3/4`, `sfac j = j + 1`. -/
theorem to_ortho_roundtrip_witness :
    ((1 : ℕ) < 8 - 2 ∧ (1 : ℕ) < 8 - 4 ∧ (1 : ℕ) < 8 - 1) ∧
      (legSeries 8 (legDir_to_ortho 8 false testU (unitVec 1)) (1 / 2) =
          legDir_evaluate_basis false testU (1 / 2) 1
        ∧ legSeries 8 (legDir_to_ortho 8 true testU (unitVec 1)) (1 / 2) =
          legDir_evaluate_basis true testU (1 / 2) 1
        ∧ legSeries 8 (legNeu_to_ortho 8 (unitVec 1)) (1 / 2) = legNeu_evaluate_basis (1 / 2) 1
        ∧ legSeries 8 (legBih_to_ortho 8 (unitVec 1)) (1 / 2) =
          legBih_evaluate_basis 8 (1 / 2) 1
        ∧ lagSeries 8 (lagDir_to_ortho 8 (unitVec 1)) (1 / 2) (3 / 4) =
          lagDir_evaluate_basis (1 / 2) (3 / 4) 1) := by
  have h := to_ortho_roundtrip 8 1 (1 / 2) (3 / 4) testU
  exact ⟨⟨by decide, by decide, by decide⟩,
    h.1 (by decide), h.2.1 (by decide), h.2.2.1 (by decide),
    h.2.2.2.1 (by decide), h.2.2.2.2 (by decide)⟩

theorem lagder1_column (M j : ℕ) (x : ℚ) (hj : j ≤ M) :
    (∑ m in Finset.range M, laguerreP m x * lagder1_mat m j) = laguerreD j x := by
  have h1 : ∀ m ∈ Finset.range M, laguerreP m x * lagder1_mat m j =
      (if m < j then -laguerreP m x else 0) := by
    intro m _
    rw [lagder1_mat]
    split_ifs <;> ring
  rw [Finset.sum_congr rfl h1, sum_ite_lt_range M j hj (fun m => -laguerreP m x),
    laguerreD_closed, lagSum, ← Finset.sum_neg_distrib]

theorem lagder2_column (M j : ℕ) (x : ℚ) (hj : j ≤ M) :
    (∑ m in Finset.range M, laguerreP m x * lagder2_mat m j) = laguerreD2 j x := by
  have h1 : ∀ m ∈ Finset.range M, laguerreP m x * lagder2_mat m j =
      (if m < j then ((j : ℚ) - 1 - (m : ℚ)) * laguerreP m x else 0) := by
    intro m _
    rw [lagder2_mat]
    by_cases h : m + 1 < j
    · rw [if_pos h, if_pos (by omega)]
      ring
    · rw [if_neg h]
      by_cases h2 : m < j
      · have hjm : j = m + 1 := by omega
        subst hjm
        rw [if_pos (by omega)]
        push_cast
        ring
      · rw [if_neg h2]
        ring
  rw [Finset.sum_congr rfl h1,
    sum_ite_lt_range M j hj (fun m => ((j : ℚ) - 1 - (m : ℚ)) * laguerreP m x),
    ← lagSum2_weighted, laguerreD2_closed]

/-- C5: the Laguerre `evaluate_basis_derivative_all` matrix implements the
product rule for the damped functions `L_k = P_k exp(-x/2)`: order 0 gives
`P_k exp(-x/2)`, order 1 gives `(P_k' - P_k/2) exp(-x/2)`, order 2 gives
`(P_k'' - P_k' + P_k/4) exp(-x/2)` (derivatives taken of the polynomial
factor, via `derivPoly`), composed with the Dirichlet composite
combination; every order above 2 produces an error (`none`) instead of a
value. -/
theorem lag_derivative_matrix (M j korder : ℕ) (x ex : ℚ)
    (hj : j < M) (hk3 : 3 ≤ korder) :
    lagBase_derivative_row M 0 x ex j = laguerreP j x * ex
    ∧ lagBase_derivative_row M 1 x ex j = (laguerreD j x - laguerreP j x / 2) * ex
    ∧ lagBase_derivative_row M 2 x ex j =
        (laguerreD2 j x - laguerreD j x + laguerreP j x / 4) * ex
    ∧ lagBase_evaluate_basis_derivative_all M korder x ex = none
    ∧ lagBase_evaluate_basis_derivative_all M 1 x ex =
        some (lagBase_derivative_row M 1 x ex)
    ∧ (j + 1 < M →
        lagDir_composite_basis M 0 (fun _ l => lagBase_derivative_row M 1 x ex l) 0 j =
          ((laguerreD j x - laguerreP j x / 2)
            - (laguerreD (j + 1) x - laguerreP (j + 1) x / 2)) * ex) := by
  have hrow1 : ∀ i : ℕ, i ≤ M → lagBase_derivative_row M 1 x ex i =
      (laguerreD i x - laguerreP i x / 2) * ex := by
    intro i hi
    show ((∑ m in Finset.range M, laguerreP m x * lagder1_mat m i)
        - 1 / 2 * laguerreP i x) * ex = _
    rw [lagder1_column M i x hi]
    ring
  refine ⟨rfl, hrow1 j (le_of_lt hj), ?_, ?_, ?_, ?_⟩
  · show ((∑ m in Finset.range M, laguerreP m x * (lagder2_mat m j - lagder1_mat m j))
        + 1 / 4 * laguerreP j x) * ex = _
    have hsplit : (∑ m in Finset.range M,
        laguerreP m x * (lagder2_mat m j - lagder1_mat m j)) =
        (∑ m in Finset.range M, laguerreP m x * lagder2_mat m j)
          - ∑ m in Finset.range M, laguerreP m x * lagder1_mat m j := by
      rw [← Finset.sum_sub_distrib]
      exact Finset.sum_congr rfl fun m _ => by ring
    rw [hsplit, lagder1_column M j x (le_of_lt hj), lagder2_column M j x (le_of_lt hj)]
    ring
  · rw [lagBase_evaluate_basis_derivative_all, if_neg (by omega)]
  · rw [lagBase_evaluate_basis_derivative_all, if_pos (by norm_num)]
  · intro hj1
    rw [lagDir_composite_basis]
    rw [if_pos (by omega : j < M - 1)]
    rw [hrow1 j (by omega), hrow1 (j + 1) (by omega)]
    ring

/-- Witness for C5 at `M = 5`, `j = 2`, out-of-range order 7, `x = 1/3`,
`ex = 2/5`. -/
theorem lag_derivative_matrix_witness :
    ((2 : ℕ) < 5 ∧ 3 ≤ 7 ∧ (2 : ℕ) + 1 < 5) ∧
      (lagBase_derivative_row 5 0 (1 / 3) (2 / 5) 2 = laguerreP 2 (1 / 3) * (2 / 5)
        ∧ lagBase_derivative_row 5 1 (1 / 3) (2 / 5) 2 =
            (laguerreD 2 (1 / 3) - laguerreP 2 (1 / 3) / 2) * (2 / 5)
        ∧ lagBase_derivative_row 5 2 (1 / 3) (2 / 5) 2 =
            (laguerreD2 2 (1 / 3) - laguerreD 2 (1 / 3) + laguerreP 2 (1 / 3) / 4) * (2 / 5)
        ∧ lagBase_evaluate_basis_derivative_all 5 7 (1 / 3) (2 / 5) = none
        ∧ lagBase_evaluate_basis_derivative_all 5 1 (1 / 3) (2 / 5) =
            some (lagBase_derivative_row 5 1 (1 / 3) (2 / 5))
        ∧ lagDir_composite_basis 5 0 (fun _ l => lagBase_derivative_row 5 1 (1 / 3) (2 / 5) l) 0 2 =
            ((laguerreD 2 (1 / 3) - laguerreP 2 (1 / 3) / 2)
              - (laguerreD (2 + 1) (1 / 3) - laguerreP (2 + 1) (1 / 3) / 2)) * (2 / 5)) := by
  have h := lag_derivative_matrix 5 2 7 (1 / 3) (2 / 5) (by decide) (by decide)
  exact ⟨⟨by decide, by decide, by decide⟩,
    h.1, h.2.1, h.2.2.1, h.2.2.2.1, h.2.2.2.2.1, h.2.2.2.2.2 (by decide)⟩

theorem basePlan_unplanned (pf : ℚ) (N : ℕ) (shape : List ℕ) (ax : ℕ) (s : BaseState)
    (h : s.fwd = none) : basePlan pf N shape ax s = baseRebuild pf N shape ax s := by
  simp only [basePlan, h]

theorem basePlan_stale (pf : ℚ) (N : ℕ) (shape : List ℕ) (ax : ℕ) (s : BaseState)
    (t : TransformObj) (h : s.fwd = some t) (hc : ¬(t.inShape = shape ∧ s.axisv = ax)) :
    basePlan pf N shape ax s = baseRebuild pf N shape ax s := by
  simp only [basePlan, h, if_neg hc]

theorem dirPlan_unplanned (pf : ℚ) (N : ℕ) (shape : List ℕ) (ax : ℕ) (s : DirState)
    (h : s.fwd = none) : dirPlan pf N shape ax s = dirRebuild pf N shape ax s := by
  simp only [dirPlan, h]

theorem dirPlan_stale (pf : ℚ) (N : ℕ) (shape : List ℕ) (ax : ℕ) (s : DirState)
    (t : TransformObj) (h : s.fwd = some t) (hc : ¬(t.inShape = shape ∧ s.axisv = ax)) :
    dirPlan pf N shape ax s = dirRebuild pf N shape ax s := by
  simp only [dirPlan, h, if_neg hc]

theorem dirPlan_noop (pf : ℚ) (N : ℕ) (shape : List ℕ) (ax : ℕ) (s : DirState)
    (t : TransformObj) (h : s.fwd = some t) (hc : t.inShape = shape ∧ s.axisv = ax) :
    dirPlan pf N shape ax s = s := by
  simp only [dirPlan, h, if_pos hc]

theorem dirRebuild_planned (pf : ℚ) (N : ℕ) (shape : List ℕ) (ax : ℕ) (s : DirState) :
    (dirRebuild pf N shape ax s).axisv = ax ∧
      ∃ t, (dirRebuild pf N shape ax s).fwd = some t ∧ t.inShape = shape := by
  simp only [dirRebuild]
  split_ifs with hp
  · exact ⟨rfl, _, rfl, rfl⟩
  · exact ⟨rfl, _, rfl, rfl⟩

theorem dirPlan_planned (pf : ℚ) (N : ℕ) (shape : List ℕ) (ax : ℕ) (s : DirState) :
    (dirPlan pf N shape ax s).axisv = ax ∧
      ∃ t, (dirPlan pf N shape ax s).fwd = some t ∧ t.inShape = shape := by
  cases hf : s.fwd with
  | none => rw [dirPlan_unplanned pf N shape ax s hf]; exact dirRebuild_planned pf N shape ax s
  | some t =>
    by_cases hc : t.inShape = shape ∧ s.axisv = ax
    · rw [dirPlan_noop pf N shape ax s t hf hc]
      exact ⟨hc.2, t, hf, hc.1⟩
    · rw [dirPlan_stale pf N shape ax s t hf hc]
      exact dirRebuild_planned pf N shape ax s

theorem baseRebuild_one (N : ℕ) (shape : List ℕ) (ax : ℕ) (s : BaseState) :
    baseRebuild 1 N shape ax s =
      { nextId := s.nextId + 4, axisv := ax,
        fwd := some ⟨s.nextId, shape, s.nextId + 1, s.nextId + 1⟩,
        bwd := some ⟨s.nextId + 1, shape, s.nextId + 1, s.nextId⟩,
        buw := some ⟨s.nextId + 1, shape, s.nextId + 1, s.nextId⟩,
        sp := some ⟨s.nextId, shape, s.nextId + 1, s.nextId + 1⟩,
        si := some (ax, s.nextId + 2), sl := some (ax, s.nextId + 3) } := by
  unfold baseRebuild
  rw [if_neg (by norm_num)]

theorem basePlan_init (N : ℕ) (shape : List ℕ) (ax : ℕ) :
    basePlan 1 N shape ax initDirState.lt =
      { nextId := 4, axisv := ax,
        fwd := some ⟨0, shape, 1, 1⟩, bwd := some ⟨1, shape, 1, 0⟩,
        buw := some ⟨1, shape, 1, 0⟩, sp := some ⟨0, shape, 1, 1⟩,
        si := some (ax, 2), sl := some (ax, 3) } := by
  rw [basePlan_unplanned 1 N shape ax _ rfl, baseRebuild_one]
  rfl

theorem dirPlan_init_padded (pf : ℚ) (N : ℕ) (shape : List ℕ) (ax : ℕ)
    (hp : 1 + 1 / 100000000 < pf) :
    dirPlan pf N shape ax initDirState =
      { lt := { nextId := 7, axisv := ax, fwd := some ⟨0, shape, 1, 1⟩,
                bwd := some ⟨1, shape, 1, 0⟩, buw := some ⟨1, shape, 1, 0⟩,
                sp := some ⟨0, shape, 1, 1⟩, si := some (ax, 2), sl := some (ax, 3) },
        axisv := ax,
        fwd := some ⟨0, shape, 1, 4⟩,
        bwd := some ⟨4, truncShape shape ax N, 1, 0⟩,
        buw := some ⟨4, truncShape shape ax N, 1, 0⟩,
        sp := some ⟨0, shape, 1, 1⟩,
        si := some (ax, 5), sl := some (ax, 6) } := by
  rw [dirPlan_unplanned pf N shape ax _ rfl]
  unfold dirRebuild
  rw [basePlan_init N shape ax]
  simp only [Option.map_some', Option.getD_some]
  rw [if_pos hp]

theorem dirPlan_init_unpadded (pf : ℚ) (N : ℕ) (shape : List ℕ) (ax : ℕ)
    (hp : ¬(1 + 1 / 100000000 < pf)) :
    dirPlan pf N shape ax initDirState =
      { lt := { nextId := 6, axisv := ax, fwd := some ⟨0, shape, 1, 1⟩,
                bwd := some ⟨1, shape, 1, 0⟩, buw := some ⟨1, shape, 1, 0⟩,
                sp := some ⟨0, shape, 1, 1⟩, si := some (ax, 2), sl := some (ax, 3) },
        axisv := ax,
        fwd := some ⟨0, shape, 1, 1⟩,
        bwd := some ⟨1, shape, 1, 0⟩,
        buw := some ⟨1, shape, 1, 0⟩,
        sp := some ⟨0, shape, 1, 1⟩,
        si := some (ax, 4), sl := some (ax, 5) } := by
  rw [dirPlan_unplanned pf N shape ax _ rfl]
  unfold dirRebuild
  rw [basePlan_init N shape ax]
  simp only [Option.map_some', Option.getD_some]
  rw [if_neg hp]

/-- C9: `plan` is idempotent — a second call with the identical
`(shape, axis)` pair returns without touching the state, leaving the
forward/backward/scalar-product `Transform` objects, their buffers and the
slice maps `si`, `sl` the very same objects — while a call with a different
shape or axis rebuilds all of them (every resulting object is a fresh
allocation, distinct from the previous one). -/
theorem dirPlan_idempotent_rebuild (pf : ℚ) (N : ℕ) (shape shape2 : List ℕ)
    (ax ax2 : ℕ) (s : DirState) (hdiff : shape2 ≠ shape ∨ ax2 ≠ ax) :
    dirPlan pf N shape ax (dirPlan pf N shape ax s) = dirPlan pf N shape ax s
    ∧ (dirPlan pf N shape2 ax2 (dirPlan pf N shape ax initDirState)).fwd ≠
        (dirPlan pf N shape ax initDirState).fwd
    ∧ (dirPlan pf N shape2 ax2 (dirPlan pf N shape ax initDirState)).bwd ≠
        (dirPlan pf N shape ax initDirState).bwd
    ∧ (dirPlan pf N shape2 ax2 (dirPlan pf N shape ax initDirState)).sp ≠
        (dirPlan pf N shape ax initDirState).sp
    ∧ (dirPlan pf N shape2 ax2 (dirPlan pf N shape ax initDirState)).si ≠
        (dirPlan pf N shape ax initDirState).si
    ∧ (dirPlan pf N shape2 ax2 (dirPlan pf N shape ax initDirState)).sl ≠
        (dirPlan pf N shape ax initDirState).sl := by
  have hidem : dirPlan pf N shape ax (dirPlan pf N shape ax s) = dirPlan pf N shape ax s := by
    obtain ⟨hax, t, hft, hsh⟩ := dirPlan_planned pf N shape ax s
    exact dirPlan_noop pf N shape ax _ t hft ⟨hsh, hax⟩
  have hcond : ¬((shape : List ℕ) = shape2 ∧ ax = ax2) := by
    rintro ⟨h1, h2⟩
    rcases hdiff with h | h
    · exact h h1.symm
    · exact h h2.symm
  by_cases hp : (1 : ℚ) + 1 / 100000000 < pf
  · have hs1 := dirPlan_init_padded pf N shape ax hp
    have hs2 : dirPlan pf N shape2 ax2 (dirPlan pf N shape ax initDirState) =
        { lt := { nextId := 14, axisv := ax2, fwd := some ⟨7, shape2, 8, 8⟩,
                  bwd := some ⟨8, shape2, 8, 7⟩, buw := some ⟨8, shape2, 8, 7⟩,
                  sp := some ⟨7, shape2, 8, 8⟩, si := some (ax2, 9), sl := some (ax2, 10) },
          axisv := ax2,
          fwd := some ⟨7, shape2, 8, 11⟩,
          bwd := some ⟨11, truncShape shape2 ax2 N, 8, 7⟩,
          buw := some ⟨11, truncShape shape2 ax2 N, 8, 7⟩,
          sp := some ⟨7, shape2, 8, 8⟩,
          si := some (ax2, 12), sl := some (ax2, 13) } := by
      rw [hs1]
      rw [dirPlan_stale pf N shape2 ax2 _ ⟨0, shape, 1, 4⟩ rfl hcond]
      unfold dirRebuild
      rw [basePlan_stale 1 N shape2 ax2 _ ⟨0, shape, 1, 1⟩ rfl hcond, baseRebuild_one]
      simp only [Option.map_some', Option.getD_some]
      rw [if_pos hp]
    rw [hs2, hs1]
    refine ⟨hidem, ?_, ?_, ?_, ?_, ?_⟩ <;> simp
  · have hs1 := dirPlan_init_unpadded pf N shape ax hp
    have hs2 : dirPlan pf N shape2 ax2 (dirPlan pf N shape ax initDirState) =
        { lt := { nextId := 12, axisv := ax2, fwd := some ⟨6, shape2, 7, 7⟩,
                  bwd := some ⟨7, shape2, 7, 6⟩, buw := some ⟨7, shape2, 7, 6⟩,
                  sp := some ⟨6, shape2, 7, 7⟩, si := some (ax2, 8), sl := some (ax2, 9) },
          axisv := ax2,
          fwd := some ⟨6, shape2, 7, 7⟩,
          bwd := some ⟨7, shape2, 7, 6⟩,
          buw := some ⟨7, shape2, 7, 6⟩,
          sp := some ⟨6, shape2, 7, 7⟩,
          si := some (ax2, 10), sl := some (ax2, 11) } := by
      rw [hs1]
      rw [dirPlan_stale pf N shape2 ax2 _ ⟨0, shape, 1, 1⟩ rfl hcond]
      unfold dirRebuild
      rw [basePlan_stale 1 N shape2 ax2 _ ⟨0, shape, 1, 1⟩ rfl hcond, baseRebuild_one]
      simp only [Option.map_some', Option.getD_some]
      rw [if_neg hp]
    rw [hs2, hs1]
    refine ⟨hidem, ?_, ?_, ?_, ?_, ?_⟩ <;> simp

/-- Witness for C9: `pf = 1`, `N = 4`, first plan for `([8], 0)`, second for
`([10], 0)`. -/
theorem dirPlan_idempotent_rebuild_witness :
    (([10] : List ℕ) ≠ [8] ∨ (0 : ℕ) ≠ 0) ∧
      (dirPlan 1 4 [8] 0 (dirPlan 1 4 [8] 0 initDirState) = dirPlan 1 4 [8] 0 initDirState
        ∧ (dirPlan 1 4 [10] 0 (dirPlan 1 4 [8] 0 initDirState)).fwd ≠
            (dirPlan 1 4 [8] 0 initDirState).fwd
        ∧ (dirPlan 1 4 [10] 0 (dirPlan 1 4 [8] 0 initDirState)).bwd ≠
            (dirPlan 1 4 [8] 0 initDirState).bwd
        ∧ (dirPlan 1 4 [10] 0 (dirPlan 1 4 [8] 0 initDirState)).sp ≠
            (dirPlan 1 4 [8] 0 initDirState).sp
        ∧ (dirPlan 1 4 [10] 0 (dirPlan 1 4 [8] 0 initDirState)).si ≠
            (dirPlan 1 4 [8] 0 initDirState).si
        ∧ (dirPlan 1 4 [10] 0 (dirPlan 1 4 [8] 0 initDirState)).sl ≠
            (dirPlan 1 4 [8] 0 initDirState).sl) :=
  ⟨Or.inl (by decide),
    dirPlan_idempotent_rebuild 1 4 [8] [10] 0 0 initDirState (Or.inl (by decide))⟩
